import Mathlib

/-!
Verification development for the blocking-rule learner of the `dedupe`
training core (`dedupe/training.py`, `dedupe/predicates.py`,
`dedupe/labeler.py`).

Modelling conventions, shared by all definitions below:

* Python `dict`s are modelled as association lists (`List (K × V)`):
  insertion order is the list order, `d[k] = v` (`dictInsert`) updates the
  first matching entry in place or appends a fresh entry at the end, and
  `d[k]` (`alookup`) returns the first matching value.  Python dict keys are
  unique, which the theorems carry as `Nodup` hypotheses on the key list.
* Python `float` arithmetic on comparison-cost estimates is modelled with
  exact rationals (`ℚ`); `float('inf')` becomes the `none` case of
  `Option ℚ` (see `ltOptQ`/`subOptQ`).
* Predicates are an abstract type `P`.  `sorted(..., key=str)` sorts by the
  string representation of a predicate, a fixed total order on predicates;
  it is modelled by an arbitrary numeric key `rep : P → ℕ` (Python's stable
  `sorted` is modelled by the stable `insSortK`).
* A Python exception is the `none` / `.error` case of an `Option`/`Except`
  result.
-/

namespace Dedupe

/-! ## Association lists: the model of Python `dict` -/

variable {K : Type} {V : Type} [DecidableEq K]

/-- `d[k]`: first value stored under `k`, `none` when `k` is not a key. -/
def alookup : List (K × V) → K → Option V
  | [], _ => none
  | kv :: rest, k => if kv.1 = k then some kv.2 else alookup rest k

/-- `d[k] = v`: replace the entry for `k` in place, or append it. -/
def dictInsert : List (K × V) → K → V → List (K × V)
  | [], k, v => [(k, v)]
  | kv :: rest, k, v => if kv.1 = k then (k, v) :: rest else kv :: dictInsert rest k v

/-- The keys of a dict, in insertion order. -/
def keysOf (d : List (K × V)) : List K := d.map Prod.fst

@[simp] theorem keysOf_nil : keysOf ([] : List (K × V)) = [] := rfl

@[simp] theorem keysOf_cons (kv : K × V) (rest : List (K × V)) :
    keysOf (kv :: rest) = kv.1 :: keysOf rest := rfl

@[simp] theorem alookup_nil (k : K) : alookup ([] : List (K × V)) k = none := rfl

theorem alookup_cons (kv : K × V) (rest : List (K × V)) (k : K) :
    alookup (kv :: rest) k = if kv.1 = k then some kv.2 else alookup rest k := rfl

theorem alookup_eq_none {d : List (K × V)} {k : K} (h : k ∉ keysOf d) :
    alookup d k = none := by
  induction d with
  | nil => rfl
  | cons kv rest ih =>
    have h1 : kv.1 ≠ k := by
      intro he
      exact h (by simp [he])
    have h2 : k ∉ keysOf rest := fun hm => h (by simp [hm])
    simp [alookup_cons, h1, ih h2]

theorem alookup_mem {d : List (K × V)} {k : K} {v : V} (h : alookup d k = some v) :
    (k, v) ∈ d := by
  induction d with
  | nil => simp [alookup] at h
  | cons kv rest ih =>
    obtain ⟨a, b⟩ := kv
    rw [alookup_cons] at h
    by_cases hk : a = k
    · subst hk
      simp at h
      subst h
      exact List.mem_cons_self _ _
    · simp [hk] at h
      exact List.mem_cons_of_mem _ (ih h)

theorem mem_keysOf_of_alookup {d : List (K × V)} {k : K} {v : V}
    (h : alookup d k = some v) : k ∈ keysOf d :=
  List.mem_map_of_mem Prod.fst (alookup_mem h)

theorem alookup_of_mem {d : List (K × V)} {k : K} {v : V}
    (hnd : (keysOf d).Nodup) (h : (k, v) ∈ d) : alookup d k = some v := by
  induction d with
  | nil => simp at h
  | cons kv rest ih =>
    obtain ⟨a, b⟩ := kv
    have hnd' : a ∉ keysOf rest ∧ (keysOf rest).Nodup := by
      simpa using hnd
    rcases List.mem_cons.1 h with h1 | h1
    · rw [Prod.mk.injEq] at h1
      obtain ⟨rfl, rfl⟩ := h1
      simp [alookup_cons]
    · have hak : a ≠ k := by
        intro he
        subst he
        exact hnd'.1 (List.mem_map_of_mem Prod.fst h1)
      simp only [alookup_cons, if_neg hak]
      exact ih hnd'.2 h1

theorem alookup_isSome_iff {d : List (K × V)} {k : K} :
    (alookup d k).isSome = true ↔ k ∈ keysOf d := by
  induction d with
  | nil => simp [alookup]
  | cons kv rest ih =>
    by_cases he : kv.1 = k
    · simp [alookup_cons, he]
    · have he' : ¬ (k = kv.1) := fun hc => he hc.symm
      simp [alookup_cons, he, he', ih]

theorem keysOf_dictInsert (d : List (K × V)) (k : K) (v : V) :
    keysOf (dictInsert d k v) = if k ∈ keysOf d then keysOf d else keysOf d ++ [k] := by
  induction d with
  | nil => simp [dictInsert]
  | cons kv rest ih =>
    by_cases he : kv.1 = k
    · have hm : k ∈ keysOf (kv :: rest) := by simp [he]
      simp only [dictInsert, if_pos he, if_pos hm]
      simp [he]
    · have hstep : dictInsert (kv :: rest) k v = kv :: dictInsert rest k v := by
        simp [dictInsert, he]
      by_cases hm : k ∈ keysOf rest
      · have hm2 : k ∈ keysOf (kv :: rest) := by simp [hm]
        rw [hstep, if_pos hm2, keysOf_cons, keysOf_cons, ih, if_pos hm]
      · have hm2 : k ∉ keysOf (kv :: rest) := by
          intro hc
          rcases List.mem_cons.1 (by simpa using hc) with h1 | h1
          · exact he h1.symm
          · exact hm h1
        rw [hstep, if_neg hm2, keysOf_cons, keysOf_cons, ih, if_neg hm]
        rfl

theorem alookup_dictInsert_self (d : List (K × V)) (k : K) (v : V) :
    alookup (dictInsert d k v) k = some v := by
  induction d with
  | nil => simp [dictInsert, alookup]
  | cons kv rest ih =>
    by_cases he : kv.1 = k
    · simp [dictInsert, he, alookup_cons]
    · simp [dictInsert, he, alookup_cons, ih]

theorem alookup_dictInsert_other (d : List (K × V)) (k k' : K) (v : V) (h : k ≠ k') :
    alookup (dictInsert d k v) k' = alookup d k' := by
  induction d with
  | nil => simp [dictInsert, alookup_cons, h]
  | cons kv rest ih =>
    by_cases he : kv.1 = k
    · rw [show dictInsert (kv :: rest) k v = (k, v) :: rest by simp [dictInsert, he]]
      have hk' : ¬ (kv.1 = k') := fun hc => h (he.symm.trans hc)
      rw [alookup_cons, alookup_cons, if_neg h, if_neg hk']
    · rw [show dictInsert (kv :: rest) k v = kv :: dictInsert rest k v by simp [dictInsert, he]]
      rw [alookup_cons, alookup_cons, ih]

theorem nodup_keysOf_dictInsert (d : List (K × V)) (k : K) (v : V)
    (h : (keysOf d).Nodup) : (keysOf (dictInsert d k v)).Nodup := by
  rw [keysOf_dictInsert]
  by_cases hm : k ∈ keysOf d
  · rw [if_pos hm]; exact h
  · rw [if_neg hm]
    rw [List.nodup_append]
    refine ⟨h, List.nodup_singleton k, ?_⟩
    intro a ha hb
    rcases List.mem_singleton.1 hb with rfl
    exact hm ha

/-! ## Stable insertion sort, the model of Python's `sorted(..., key=...)` -/

variable {α : Type} {Key : Type} [LinearOrder Key]

/-- Insert `x` into `l` before the first element whose key is not smaller.
Elements with a key equal to `x`'s stay behind `x`, which is what makes the
sort stable when, as in `insSortK`, `x` originally preceded them. -/
def insK (key : α → Key) (x : α) : List α → List α
  | [] => [x]
  | y :: ys => if key x ≤ key y then x :: y :: ys else y :: insK key x ys

/-- Stable insertion sort by a key function: the model of `sorted(l, key=key)`. -/
def insSortK (key : α → Key) : List α → List α
  | [] => []
  | x :: xs => insK key x (insSortK key xs)

theorem insK_perm (key : α → Key) (x : α) (l : List α) :
    List.Perm (insK key x l) (x :: l) := by
  induction l with
  | nil => rfl
  | cons y ys ih =>
    by_cases h : key x ≤ key y
    · simp [insK, h]
    · simp only [insK, if_neg h]
      exact (List.Perm.cons y ih).trans (List.Perm.swap x y ys)

theorem insSortK_perm (key : α → Key) (l : List α) :
    List.Perm (insSortK key l) l := by
  induction l with
  | nil => rfl
  | cons x xs ih =>
    exact (insK_perm key x (insSortK key xs)).trans (List.Perm.cons x ih)

theorem mem_insSortK (key : α → Key) (l : List α) (a : α) :
    a ∈ insSortK key l ↔ a ∈ l :=
  (insSortK_perm key l).mem_iff

theorem insK_sorted (key : α → Key) (x : α) (l : List α)
    (h : l.Pairwise (fun a b => key a ≤ key b)) :
    (insK key x l).Pairwise (fun a b => key a ≤ key b) := by
  induction l with
  | nil => simp [insK]
  | cons y ys ih =>
    rcases List.pairwise_cons.1 h with ⟨hy, hys⟩
    by_cases hle : key x ≤ key y
    · simp only [insK, if_pos hle]
      refine List.pairwise_cons.2 ⟨?_, h⟩
      intro b hb
      rcases List.mem_cons.1 hb with hb | hb
      · exact hb ▸ hle
      · exact le_trans hle (hy b hb)
    · have hyx : key y ≤ key x := le_of_not_le hle
      simp only [insK, if_neg hle]
      refine List.pairwise_cons.2 ⟨?_, ih hys⟩
      intro b hb
      rcases List.mem_cons.1 ((insK_perm key x ys).mem_iff.1 hb) with hb | hb
      · exact hb.symm ▸ hyx
      · exact hy b hb

theorem insSortK_sorted (key : α → Key) (l : List α) :
    (insSortK key l).Pairwise (fun a b => key a ≤ key b) := by
  induction l with
  | nil => simp [insSortK]
  | cons x xs ih => exact insK_sorted key x _ ih

theorem insSortK_eq_self (key : α → Key) (l : List α)
    (h : l.Pairwise (fun a b => key a ≤ key b)) : insSortK key l = l := by
  induction l with
  | nil => rfl
  | cons x xs ih =>
    rcases List.pairwise_cons.1 h with ⟨hx, hxs⟩
    rw [insSortK, ih hxs]
    cases xs with
    | nil => rfl
    | cons y ys =>
      have hle : key x ≤ key y := hx y (by simp)
      simp [insK, hle]

theorem insSortK_nodup (key : α → Key) (l : List α) (h : l.Nodup) :
    (insSortK key l).Nodup :=
  (insSortK_perm key l).nodup_iff.2 h

/-- Python's `max(l, key=...)` over the nonempty list `best :: rest`: the
first element attaining the maximum.  `lt` is the strict key comparison. -/
def pyMax (lt : α → α → Bool) : α → List α → α
  | best, [] => best
  | best, x :: xs => pyMax lt (if lt best x then x else best) xs

/-! ## `training.Counter`

A `Counter` holds a dict of integer counts `_d` (here `d`) and the
precomputed `total = sum(self._d.values())`.  `__eq__` compares only `_d`,
so "two Counters are equal" is modelled as pointwise equality of `alookup`
on `d`. -/

structure Counter (K : Type) where
  d : List (K × ℕ)
  total : ℕ

/-- `Counter.__init__` when the argument is already a `Mapping`: keep the
dict and set `total = sum(self._d.values())`. -/
def Counter.ofDict (d : List (K × ℕ)) : Counter K := ⟨d, (d.map Prod.snd).sum⟩

/-- The value stored under `k`, read as `0` when absent (used to state sums). -/
def valD (d : List (K × ℕ)) (k : K) : ℕ := (alookup d k).getD 0

/-- The dict comprehension in `Counter.__mul__`:
`{k: v * larger[k] for k, v in smaller.items() if k in larger_keys}`. -/
def dictMulCore (s l : List (K × ℕ)) : List (K × ℕ) :=
  s.filterMap (fun kv =>
    match alookup l kv.1 with
    | some w => some (kv.1, kv.2 * w)
    | none => none)

/-- `Counter.__mul__`: iterate the smaller dict (`if len(self) <= len(other)`),
multiply counts on the common keys, and wrap the result as a new `Counter`. -/
def Counter.mul (a b : Counter K) : Counter K :=
  if a.d.length ≤ b.d.length then Counter.ofDict (dictMulCore a.d b.d)
  else Counter.ofDict (dictMulCore b.d a.d)

theorem dictMulCore_nil (l : List (K × ℕ)) : dictMulCore ([] : List (K × ℕ)) l = [] := rfl

theorem dictMulCore_cons (kv : K × ℕ) (rest l : List (K × ℕ)) :
    dictMulCore (kv :: rest) l =
      match alookup l kv.1 with
      | some w => (kv.1, kv.2 * w) :: dictMulCore rest l
      | none => dictMulCore rest l := by
  cases h : alookup l kv.1 <;> simp [dictMulCore, List.filterMap_cons, h]

theorem dictMulCore_lookup_none_right (s l : List (K × ℕ)) (k : K)
    (h : alookup l k = none) : alookup (dictMulCore s l) k = none := by
  induction s with
  | nil => simp [dictMulCore_nil]
  | cons kv rest ih =>
    rw [dictMulCore_cons]
    cases hl : alookup l kv.1 with
    | none => exact ih
    | some w =>
      have hky : kv.1 ≠ k := by
        intro he
        rw [he, h] at hl
        exact Option.noConfusion hl
      simp [alookup_cons, hky, ih]

theorem dictMulCore_lookup (s l : List (K × ℕ)) (k : K) :
    alookup (dictMulCore s l) k =
      match alookup s k, alookup l k with
      | some v, some w => some (v * w)
      | _, _ => none := by
  induction s with
  | nil => cases alookup l k <;> simp [dictMulCore_nil]
  | cons kv rest ih =>
    obtain ⟨k0, v0⟩ := kv
    rw [dictMulCore_cons]
    by_cases hk : k0 = k
    · subst hk
      cases hl : alookup l k0 with
      | some w => simp [alookup_cons, hl]
      | none => simp [alookup_cons, hl, dictMulCore_lookup_none_right rest l k0 hl]
    · cases hl : alookup l k0 with
      | some w => simpa [alookup_cons, hk] using ih
      | none => simpa [alookup_cons, hk] using ih

theorem dictMulCore_total (s l : List (K × ℕ)) (h : (keysOf s).Nodup) :
    ((dictMulCore s l).map Prod.snd).sum =
      Finset.sum ((keysOf s).toFinset ∩ (keysOf l).toFinset)
        (fun k => valD s k * valD l k) := by
  induction s with
  | nil => simp [dictMulCore_nil]
  | cons kv rest ih =>
    obtain ⟨k0, v0⟩ := kv
    have h0 : k0 ∉ keysOf rest := (List.nodup_cons.1 (by simpa using h)).1
    have h1 : (keysOf rest).Nodup := (List.nodup_cons.1 (by simpa using h)).2
    have hins : (keysOf ((k0, v0) :: rest)).toFinset =
        insert k0 (keysOf rest).toFinset := by simp
    have hcongr : ∀ k ∈ (keysOf rest).toFinset ∩ (keysOf l).toFinset,
        valD ((k0, v0) :: rest) k * valD l k = valD rest k * valD l k := by
      intro k hk
      have hkr : k ∈ keysOf rest := List.mem_toFinset.1 (Finset.mem_inter.1 hk).1
      have hne : k0 ≠ k := fun he => h0 (he ▸ hkr)
      simp [valD, alookup_cons, hne]
    rw [dictMulCore_cons]
    cases hl : alookup l k0 with
    | some w =>
      have hk0l : k0 ∈ (keysOf l).toFinset :=
        List.mem_toFinset.2 (mem_keysOf_of_alookup hl)
      have hsplit : (keysOf ((k0, v0) :: rest)).toFinset ∩ (keysOf l).toFinset =
          insert k0 ((keysOf rest).toFinset ∩ (keysOf l).toFinset) := by
        rw [hins, Finset.insert_inter_of_mem hk0l]
      have hnotin : k0 ∉ (keysOf rest).toFinset ∩ (keysOf l).toFinset := by
        intro hc
        exact h0 (List.mem_toFinset.1 (Finset.mem_inter.1 hc).1)
      rw [hsplit, Finset.sum_insert hnotin]
      have hval : valD ((k0, v0) :: rest) k0 * valD l k0 = v0 * w := by
        simp [valD, alookup_cons, hl]
      rw [hval, Finset.sum_congr rfl hcongr, ← ih h1]
      simp
    | none =>
      have hk0l : k0 ∉ (keysOf l).toFinset := by
        intro hc
        have := alookup_isSome_iff.2 (List.mem_toFinset.1 hc)
        rw [hl] at this
        exact Bool.noConfusion this
      have hsplit : (keysOf ((k0, v0) :: rest)).toFinset ∩ (keysOf l).toFinset =
          (keysOf rest).toFinset ∩ (keysOf l).toFinset := by
        rw [hins, Finset.insert_inter_of_not_mem hk0l]
      rw [hsplit, Finset.sum_congr rfl hcongr, ← ih h1]

theorem counter_mul_lookup (a b : Counter K) (k : K) :
    alookup (Counter.mul a b).d k =
      match alookup a.d k, alookup b.d k with
      | some v, some w => some (v * w)
      | _, _ => none := by
  rw [Counter.mul]
  by_cases hlen : a.d.length ≤ b.d.length
  · simp only [if_pos hlen, Counter.ofDict]
    exact dictMulCore_lookup a.d b.d k
  · simp only [if_neg hlen, Counter.ofDict]
    rw [dictMulCore_lookup b.d a.d k]
    cases alookup a.d k <;> cases alookup b.d k <;> simp [Nat.mul_comm]

theorem counter_mul_total (a b : Counter K)
    (ha : (keysOf a.d).Nodup) (hb : (keysOf b.d).Nodup) :
    (Counter.mul a b).total =
      Finset.sum ((keysOf a.d).toFinset ∩ (keysOf b.d).toFinset)
        (fun k => valD a.d k * valD b.d k) := by
  rw [Counter.mul]
  by_cases hlen : a.d.length ≤ b.d.length
  · simp only [if_pos hlen, Counter.ofDict]
    exact dictMulCore_total a.d b.d ha
  · simp only [if_neg hlen, Counter.ofDict]
    rw [dictMulCore_total b.d a.d hb, Finset.inter_comm]
    exact Finset.sum_congr rfl (fun k _ => Nat.mul_comm _ _)

/-! ## Predicate keys and covers (`training.Cover`)

A `Cover` maps predicates to the set of indices (into the labelled match
list) of the pairs they cover.  Keys are either simple predicates or
`CompoundPredicate`s; in `learn`, `compound` is invoked once, on a cover
whose keys are all simple, so compound keys have simple components. -/

/-- A key of a `Cover` dict: a simple predicate or the `CompoundPredicate`
built from a tuple of simple predicates. -/
inductive PKey (P : Type) where
  | simple : P → PKey P
  | comp : List P → PKey P
deriving DecidableEq

/-- Whether a cover key is a bare (non-compound) predicate. -/
def PKey.isSimple {P : Type} : PKey P → Bool
  | PKey.simple _ => true
  | PKey.comp _ => false

/-- A `Cover`'s dict (`Cover._d`): predicate key → covered match indices. -/
abbrev CoverD (P : Type) := List (PKey P × Finset ℕ)

variable {P : Type} [DecidableEq P] {R : Type}

/-- `':'.join(block_key)` in `CompoundPredicate.__call__`. -/
def joinKeys : List String → String
  | [] => ""
  | [k] => k
  | k :: rest => k ++ ":" ++ joinKeys rest

/-- `itertools.product(*predicate_keys)`: pick one block key per component. -/
def keyProduct : List (Finset String) → Finset (List String)
  | [] => {[]}
  | s :: rest => s.biUnion (fun k => (keyProduct rest).image (fun ks => k :: ks))

/-- Applying a cover key to a record: a simple predicate applies directly;
a compound key follows `CompoundPredicate.__call__`, joining one block key
from each component with `':'` (the `target` flag is passed through). -/
def applyK (applyP : P → R → Bool → Finset String) : PKey P → R → Bool → Finset String
  | PKey.simple p, r, t => applyP p r t
  | PKey.comp l, r, t => (keyProduct (l.map (fun p => applyP p r t))).image joinKeys

/-- Whether a labelled pair is covered by a key:
`set(predicate(record_1)) & set(predicate(record_2, target=True))` nonempty. -/
def coversPair (applyP : P → R → Bool → Finset String) (k : PKey P) (pr : R × R) : Bool :=
  decide (applyK applyP k pr.1 false ∩ applyK applyP k pr.2 true ≠ ∅)

/-- Pair-index test used by `coverageOfK` (out-of-range indices are never
covered; `Cover._cover` only enumerates in-range indices). -/
def coversAt (applyP : P → R → Bool → Finset String) (ms : List (R × R))
    (k : PKey P) (i : ℕ) : Bool :=
  match ms[i]? with
  | some pr => coversPair applyP k pr
  | none => false

/-- The cover of a key evaluated over the labelled matches, as built by
`Cover._cover`: `{i for i, (r1, r2) in enumerate(pairs) if covered}`. -/
def coverageOfK (applyP : P → R → Bool → Finset String) (ms : List (R × R))
    (k : PKey P) : Finset ℕ :=
  (Finset.range ms.length).filter (fun i => coversAt applyP ms k i = true)

/-- `Cover.__init__` from `(predicates, pairs)` via `Cover._cover`: store
each predicate's coverage when it is nonempty, in iteration order. -/
def Cover.ofMatches (applyP : P → R → Bool → Finset String) (preds : List P)
    (ms : List (R × R)) : CoverD P :=
  preds.filterMap (fun p =>
    let c := coverageOfK applyP ms (PKey.simple p)
    if c = ∅ then none else some (PKey.simple p, c))

/-- `itertools.combinations(l, n)`, in its enumeration order. -/
def combinations {α : Type} : ℕ → List α → List (List α)
  | 0, _ => [[]]
  | _ + 1, [] => []
  | n + 1, x :: xs =>
      (combinations n xs).map (fun t => x :: t) ++ combinations (n + 1) xs

/-- The simple predicates among a cover's keys (in `learn` every key is
simple when `compound` runs, so this is the whole key list). -/
def simpleKeys (d : CoverD P) : List P :=
  d.filterMap (fun kv =>
    match kv.1 with
    | PKey.simple p => some p
    | PKey.comp _ => none)

/-- The dict key for `a = compound_predicate[:-1]` in `Cover.compound`:
the tuple is unwrapped to the bare predicate when it has length 1. -/
def compoundAKey (l : List P) : PKey P :=
  match l.dropLast with
  | [p] => PKey.simple p
  | xs => PKey.comp xs

/-- One iteration of the inner loop of `Cover.compound`: split the
combination into `a = compound_predicate[:-1]` and `b =
compound_predicate[-1]`, look both covers up (`if a in self._d` guards the
first), and store the nonempty intersection under the new
`CompoundPredicate` key. -/
def compoundStep (d : CoverD P) (l : List P) : CoverD P :=
  match l.getLast? with
  | none => d
  | some b =>
    match alookup d (compoundAKey l) with
    | none => d
    | some ca =>
      if ca ∩ (alookup d (PKey.simple b)).getD ∅ = ∅ then d
      else dictInsert d (PKey.comp l) (ca ∩ (alookup d (PKey.simple b)).getD ∅)

/-- `Cover.compound(compound_length)`: materialise the predicates present,
sorted by representation, then for each size `2..compound_length` fold the
combinations through `compoundStep`. -/
def Cover.compound (rep : P → ℕ) (cl : ℕ) (d : CoverD P) : CoverD P :=
  let pool := insSortK rep (simpleKeys d)
  (List.range' 2 (cl - 1)).foldl
    (fun dd i => (combinations i pool).foldl compoundStep dd) d

/-- `Cover.intersection_update(other)`: keep the keys also present in
`other`.  (The Python implementation iterates an unordered set
intersection; the model keeps the cover's own insertion order, which is
one of the admissible orders.) -/
def Cover.intersectionUpdate (d : CoverD P) (other : List (PKey P)) : CoverD P :=
  d.filter (fun kv => decide (kv.1 ∈ other))

/-- `better_or_equal` in `Cover.dominators`: a later predicate whose cover
is a superset (`other_match >= candidate_match`) at cost no larger. -/
def betterEq (cost : PKey P → ℚ) (d : CoverD P) (p c : PKey P) : Bool :=
  decide ((alookup d c).getD ∅ ⊆ (alookup d p).getD ∅ ∧ cost p ≤ cost c)

/-- The main loop of `Cover.dominators`: a candidate survives exactly when
no later predicate in the order is better or equal (the `for ... else`). -/
def dominantsLoop (cost : PKey P → ℚ) (d : CoverD P) : List (PKey P) → CoverD P
  | [] => []
  | c :: rest =>
    if rest.any (fun p => betterEq cost d p c)
    then dominantsLoop cost d rest
    else (c, (alookup d c).getD ∅) :: dominantsLoop cost d rest

/-- The sort key of `Cover.dominators`: `(-cost[x], len(self._d[x]))`,
compared lexicographically. -/
def domKey (cost : PKey P → ℚ) (d : CoverD P) (k : PKey P) : ℚ ×ₗ ℕ :=
  toLex (-(cost k), ((alookup d k).getD ∅).card)

/-- `Cover.dominators(cost)`: sort the keys by `domKey` (Python's stable
sort) and keep the candidates with no better-or-equal later predicate. -/
def Cover.dominators (cost : PKey P → ℚ) (d : CoverD P) : CoverD P :=
  dominantsLoop cost d (insSortK (domKey cost d) (keysOf d))

/-! ### Lemmas about `dominators` (towards idempotence) -/

theorem dominantsLoop_keys_sublist (cost : PKey P → ℚ) (d : CoverD P)
    (l : List (PKey P)) : List.Sublist (keysOf (dominantsLoop cost d l)) l := by
  induction l with
  | nil => simp [dominantsLoop]
  | cons c rest ih =>
    by_cases h : rest.any (fun p => betterEq cost d p c) = true
    · simp only [dominantsLoop, if_pos h]
      exact ih.trans (List.sublist_cons_self c rest)
    · simp only [dominantsLoop, if_neg h, keysOf_cons]
      exact List.Sublist.cons₂ c ih

theorem dominantsLoop_val (cost : PKey P → ℚ) (d : CoverD P) (l : List (PKey P))
    {c : PKey P} {v : Finset ℕ} (h : (c, v) ∈ dominantsLoop cost d l) :
    v = (alookup d c).getD ∅ := by
  induction l with
  | nil => simp [dominantsLoop] at h
  | cons c0 rest ih =>
    by_cases hb : rest.any (fun p => betterEq cost d p c0) = true
    · rw [show dominantsLoop cost d (c0 :: rest) = dominantsLoop cost d rest by
        simp only [dominantsLoop, if_pos hb]] at h
      exact ih h
    · rw [show dominantsLoop cost d (c0 :: rest) =
          (c0, (alookup d c0).getD ∅) :: dominantsLoop cost d rest by
        simp only [dominantsLoop, if_neg hb]] at h
      rcases List.mem_cons.1 h with h1 | h1
      · rw [Prod.mk.injEq] at h1
        obtain ⟨rfl, rfl⟩ := h1
        rfl
      · exact ih h1

/-- Replaying `dominantsLoop` on its own surviving keys keeps everything,
provided the new dict assigns those keys the same covers. -/
theorem dominantsLoop_stable (cost : PKey P → ℚ) (dA dB : CoverD P)
    (l : List (PKey P))
    (hv : ∀ k ∈ keysOf (dominantsLoop cost dA l),
      (alookup dB k).getD ∅ = (alookup dA k).getD ∅) :
    dominantsLoop cost dB (keysOf (dominantsLoop cost dA l)) =
      dominantsLoop cost dA l := by
  induction l with
  | nil => simp [dominantsLoop]
  | cons c rest ih =>
    by_cases hb : rest.any (fun p => betterEq cost dA p c) = true
    · rw [show dominantsLoop cost dA (c :: rest) = dominantsLoop cost dA rest by
        simp only [dominantsLoop, if_pos hb]] at hv ⊢
      exact ih hv
    · rw [show dominantsLoop cost dA (c :: rest) =
          (c, (alookup dA c).getD ∅) :: dominantsLoop cost dA rest by
        simp only [dominantsLoop, if_neg hb]] at hv ⊢
      rw [keysOf_cons]
      have hcv : (alookup dB c).getD ∅ = (alookup dA c).getD ∅ := hv c (by simp)
      have hbeq : ∀ p ∈ keysOf (dominantsLoop cost dA rest),
          betterEq cost dB p c = betterEq cost dA p c := by
        intro p hp
        have h1 := hv p (by simp [hp])
        unfold betterEq
        rw [h1, hcv]
      have hanyA : ∀ p ∈ rest, ¬ betterEq cost dA p c = true := by
        intro p hp
        have := List.any_eq_false.1 (Bool.eq_false_iff.2 (fun hc => hb hc))
        exact fun hc => (this p hp) hc
      have hany : (keysOf (dominantsLoop cost dA rest)).any
          (fun p => betterEq cost dB p c) = false := by
        rw [List.any_eq_false]
        intro p hp
        rw [hbeq p hp]
        exact hanyA p ((dominantsLoop_keys_sublist cost dA rest).subset hp)
      rw [show dominantsLoop cost dB (c :: keysOf (dominantsLoop cost dA rest)) =
          (c, (alookup dB c).getD ∅) ::
            dominantsLoop cost dB (keysOf (dominantsLoop cost dA rest)) by
        simp only [dominantsLoop, hany, Bool.false_eq_true, if_false]]
      rw [hcv]
      congr 1
      exact ih (fun k hk => hv k (by simp [hk]))

/-- `Cover.dominators` is idempotent (for a well-formed cover: unique keys). -/
theorem dominators_idempotent (cost : PKey P → ℚ) (d : CoverD P)
    (hnd : (keysOf d).Nodup) :
    Cover.dominators cost (Cover.dominators cost d) = Cover.dominators cost d := by
  have hsubl : List.Sublist (keysOf (Cover.dominators cost d))
      (insSortK (domKey cost d) (keysOf d)) :=
    dominantsLoop_keys_sublist cost d _
  have hlnd : (insSortK (domKey cost d) (keysOf d)).Nodup :=
    insSortK_nodup _ _ hnd
  have hknd : (keysOf (Cover.dominators cost d)).Nodup := hsubl.nodup hlnd
  have hval : ∀ k ∈ keysOf (Cover.dominators cost d),
      (alookup (Cover.dominators cost d) k).getD ∅ = (alookup d k).getD ∅ := by
    intro k hk
    rcases List.mem_map.1 hk with ⟨kv, hkv, hfst⟩
    obtain ⟨k0, v0⟩ := kv
    obtain rfl : k0 = k := hfst
    rw [alookup_of_mem hknd hkv]
    rw [dominantsLoop_val cost d _ hkv]
    rfl
  have hsorted : (keysOf (Cover.dominators cost d)).Pairwise
      (fun a b => domKey cost d a ≤ domKey cost d b) :=
    List.Pairwise.sublist hsubl (insSortK_sorted _ _)
  have hkeyeq : (keysOf (Cover.dominators cost d)).Pairwise
      (fun a b => domKey cost (Cover.dominators cost d) a ≤
        domKey cost (Cover.dominators cost d) b) := by
    refine hsorted.imp_of_mem ?_
    intro a b ha hb hab
    have h1 : domKey cost (Cover.dominators cost d) a = domKey cost d a := by
      unfold domKey
      rw [hval a ha]
    have h2 : domKey cost (Cover.dominators cost d) b = domKey cost d b := by
      unfold domKey
      rw [hval b hb]
    rw [h1, h2]
    exact hab
  conv_lhs => rw [Cover.dominators]
  rw [insSortK_eq_self _ _ hkeyeq]
  exact dominantsLoop_stable cost d (Cover.dominators cost d) _ hval

/-! ### Lemmas about `itertools.combinations` and `Cover.compound` -/

theorem combinations_sublist {α : Type} :
    ∀ (n : ℕ) (l t : List α), t ∈ combinations n l → List.Sublist t l := by
  intro n l
  induction l generalizing n with
  | nil =>
    intro t ht
    cases n with
    | zero =>
      simp [combinations] at ht
      subst ht
      exact List.Sublist.refl []
    | succ n => simp [combinations] at ht
  | cons x xs ih =>
    intro t ht
    cases n with
    | zero =>
      simp [combinations] at ht
      subst ht
      exact List.nil_sublist _
    | succ n =>
      rw [combinations] at ht
      rcases List.mem_append.1 ht with h1 | h1
      · rcases List.mem_map.1 h1 with ⟨t0, ht0, rfl⟩
        exact List.Sublist.cons₂ x (ih n t0 ht0)
      · exact List.Sublist.cons x (ih (n + 1) t h1)

theorem combinations_nodup {α : Type} :
    ∀ (n : ℕ) (l : List α), l.Nodup → (combinations n l).Nodup := by
  intro n l
  induction l generalizing n with
  | nil =>
    intro _
    cases n <;> simp [combinations]
  | cons x xs ih =>
    intro hnd
    have hx : x ∉ xs := (List.nodup_cons.1 hnd).1
    have hxs : xs.Nodup := (List.nodup_cons.1 hnd).2
    cases n with
    | zero => simp [combinations]
    | succ n =>
      rw [combinations]
      rw [List.nodup_append]
      refine ⟨?_, ih (n + 1) hxs, ?_⟩
      · refine List.Nodup.map ?_ (ih n hxs)
        intro a b hab
        injection hab with h1 h2
      · intro t ht1 ht2
        rcases List.mem_map.1 ht1 with ⟨t0, _, rfl⟩
        have hsub : List.Sublist (x :: t0) xs := combinations_sublist (n + 1) xs _ ht2
        exact hx (hsub.subset (List.mem_cons_self x t0))

theorem combinations_one_mem {α : Type} :
    ∀ (v : List α) (b : α), b ∈ v → [b] ∈ combinations 1 v := by
  intro v
  induction v with
  | nil =>
    intro b hb
    simp at hb
  | cons y ys ih =>
    intro b hb
    rw [combinations]
    rcases List.mem_cons.1 hb with rfl | hb
    · exact List.mem_append.2 (Or.inl (by simp [combinations]))
    · exact List.mem_append.2 (Or.inr (ih b hb))

theorem combinations_two_mem {α : Type} :
    ∀ (u v : List α) (a b : α), b ∈ v →
      [a, b] ∈ combinations 2 (u ++ a :: v) := by
  intro u
  induction u with
  | nil =>
    intro v a b hb
    rw [List.nil_append, combinations]
    refine List.mem_append.2 (Or.inl ?_)
    exact List.mem_map.2 ⟨[b], combinations_one_mem v b hb, rfl⟩
  | cons x u' ih =>
    intro v a b hb
    rw [List.cons_append, combinations]
    exact List.mem_append.2 (Or.inr (ih v a b hb))

/-- `simpleKeys` is the key list filtered down to its simple members. -/
theorem simpleKeys_eq (d : CoverD P) :
    simpleKeys d = (keysOf d).filterMap (fun k =>
      match k with
      | PKey.simple p => some p
      | PKey.comp _ => none) := by
  rw [simpleKeys, keysOf, List.filterMap_map]
  rfl

theorem simpleKeys_nodup (d : CoverD P) (hnd : (keysOf d).Nodup) :
    (simpleKeys d).Nodup := by
  rw [simpleKeys_eq]
  refine List.Nodup.filterMap ?_ hnd
  intro a b p hpa hpb
  have ha : a = PKey.simple p := by
    cases a with
    | simple s => simp at hpa; rw [hpa]
    | comp _ => simp at hpa
  have hb : b = PKey.simple p := by
    cases b with
    | simple s => simp at hpb; rw [hpb]
    | comp _ => simp at hpb
  rw [ha, hb]

theorem mem_simpleKeys (d : CoverD P) (p : P) :
    p ∈ simpleKeys d ↔ PKey.simple p ∈ keysOf d := by
  rw [simpleKeys_eq]
  constructor
  · intro h
    rcases List.mem_filterMap.1 h with ⟨k, hk, hsome⟩
    cases k with
    | simple s =>
      simp at hsome
      exact hsome ▸ hk
    | comp _ => simp at hsome
  · intro h
    exact List.mem_filterMap.2 ⟨PKey.simple p, h, by simp⟩

/-- `compoundStep` is either a no-op or a single insertion at `comp l`. -/
theorem compoundStep_cases (dd : CoverD P) (l : List P) :
    compoundStep dd l = dd ∨
      ∃ cc, compoundStep dd l = dictInsert dd (PKey.comp l) cc := by
  rw [compoundStep]
  cases l.getLast? with
  | none => exact Or.inl rfl
  | some b =>
    cases alookup dd (compoundAKey l) with
    | none => exact Or.inl rfl
    | some ca =>
      by_cases hcc : ca ∩ (alookup dd (PKey.simple b)).getD ∅ = ∅
      · exact Or.inl (if_pos hcc)
      · exact Or.inr ⟨_, if_neg hcc⟩

theorem compoundStep_lookup_simple (dd : CoverD P) (l : List P) (s : P) :
    alookup (compoundStep dd l) (PKey.simple s) = alookup dd (PKey.simple s) := by
  rcases compoundStep_cases dd l with h | ⟨cc, h⟩
  · rw [h]
  · rw [h]
    exact alookup_dictInsert_other dd (PKey.comp l) (PKey.simple s) cc (by simp)

theorem compoundStep_lookup_comp_other (dd : CoverD P) (l t : List P) (h : t ≠ l) :
    alookup (compoundStep dd l) (PKey.comp t) = alookup dd (PKey.comp t) := by
  rcases compoundStep_cases dd l with hc | ⟨cc, hc⟩
  · rw [hc]
  · rw [hc]
    refine alookup_dictInsert_other dd (PKey.comp l) (PKey.comp t) cc ?_
    intro he
    exact h (by injection he with h1; exact h1.symm) |>.elim

theorem foldl_compoundStep_lookup_simple (cs : List (List P)) (dd : CoverD P) (s : P) :
    alookup (cs.foldl compoundStep dd) (PKey.simple s) = alookup dd (PKey.simple s) := by
  induction cs generalizing dd with
  | nil => rfl
  | cons c cs ih => rw [List.foldl_cons, ih, compoundStep_lookup_simple]

theorem foldl_compoundStep_lookup_comp (cs : List (List P)) (dd : CoverD P)
    (t : List P) (h : t ∉ cs) :
    alookup (cs.foldl compoundStep dd) (PKey.comp t) = alookup dd (PKey.comp t) := by
  induction cs generalizing dd with
  | nil => rfl
  | cons c cs ih =>
    have ht : t ≠ c := fun he => h (he ▸ List.mem_cons_self c cs)
    rw [List.foldl_cons, ih _ (fun hm => h (List.mem_cons_of_mem c hm)),
      compoundStep_lookup_comp_other dd c t ht]

theorem compoundStep_pair (dd : CoverD P) (p q : P) (cp cq : Finset ℕ)
    (hp : alookup dd (PKey.simple p) = some cp)
    (hq : alookup dd (PKey.simple q) = some cq) :
    compoundStep dd [p, q] =
      if cp ∩ cq = ∅ then dd
      else dictInsert dd (PKey.comp [p, q]) (cp ∩ cq) := by
  have h1 : ([p, q] : List P).getLast? = some q := rfl
  have h2 : compoundAKey [p, q] = PKey.simple p := rfl
  rw [compoundStep]
  simp only [h1, h2, hp, hq, Option.getD_some]

/-- For `compound_length = 2`, `Cover.compound` is a single fold of
`compoundStep` over the size-2 combinations of the sorted key pool. -/
theorem compound_two_eq (rep : P → ℕ) (d : CoverD P) :
    Cover.compound rep 2 d =
      (combinations 2 (insSortK rep (simpleKeys d))).foldl compoundStep d := rfl

/-- Characterisation of `Cover.compound(2)` on a well-formed all-simple
cover: the compound of two present predicates `p`, `q` (taken in sorted
order) is present exactly when their covers intersect, carries that
intersection as its cover, and the simple entries are untouched. -/
theorem compound_two_spec (rep : P → ℕ) (d : CoverD P)
    (hall : ∀ kv ∈ d, (kv.1).isSimple = true)
    (hnd : (keysOf d).Nodup)
    (p q : P) (cp cq : Finset ℕ)
    (hp : alookup d (PKey.simple p) = some cp)
    (hq : alookup d (PKey.simple q) = some cq)
    (hrep : rep p < rep q) :
    (alookup (Cover.compound rep 2 d) (PKey.comp [p, q]) =
      if cp ∩ cq = ∅ then none else some (cp ∩ cq))
    ∧ (PKey.comp [p, q] ∈ keysOf (Cover.compound rep 2 d) ↔ (cp ∩ cq).Nonempty)
    ∧ (∀ s : P, alookup (Cover.compound rep 2 d) (PKey.simple s) =
        alookup d (PKey.simple s)) := by
  have hnosk : ∀ t : List P, PKey.comp t ∉ keysOf d := by
    intro t hc
    rcases List.mem_map.1 hc with ⟨kv, hkv, hfst⟩
    have hsim := hall kv hkv
    rw [hfst] at hsim
    exact Bool.noConfusion hsim
  -- locate p and q in the sorted pool
  have hpool_nd : (insSortK rep (simpleKeys d)).Nodup :=
    insSortK_nodup rep _ (simpleKeys_nodup d hnd)
  have hppool : p ∈ insSortK rep (simpleKeys d) :=
    (mem_insSortK rep _ p).2 ((mem_simpleKeys d p).2 (mem_keysOf_of_alookup hp))
  have hqpool : q ∈ insSortK rep (simpleKeys d) :=
    (mem_insSortK rep _ q).2 ((mem_simpleKeys d q).2 (mem_keysOf_of_alookup hq))
  rcases List.append_of_mem hppool with ⟨u, v, huv⟩
  have hqv : q ∈ v := by
    have hsorted := insSortK_sorted rep (simpleKeys d)
    rw [huv] at hsorted hqpool
    rcases List.mem_append.1 hqpool with h1 | h1
    · exfalso
      have := (List.pairwise_append.1 hsorted).2.2 q h1 p (List.mem_cons_self p v)
      exact absurd hrep (not_lt_of_le this)
    · rcases List.mem_cons.1 h1 with h2 | h2
      · exact absurd (h2 ▸ hrep) (lt_irrefl _)
      · exact h2
  have hmem : [p, q] ∈ combinations 2 (insSortK rep (simpleKeys d)) := by
    rw [huv]
    exact combinations_two_mem u v p q hqv
  have hcnd : (combinations 2 (insSortK rep (simpleKeys d))).Nodup :=
    combinations_nodup 2 _ hpool_nd
  rcases List.append_of_mem hmem with ⟨cs1, cs2, hsplit⟩
  have hnotmem : [p, q] ∉ cs1 ∧ [p, q] ∉ cs2 := by
    have := hsplit ▸ hcnd
    have hmid := (List.nodup_middle).1 this
    have hnm := (List.nodup_cons.1 hmid).1
    constructor
    · intro hc
      exact hnm (List.mem_append.2 (Or.inl hc))
    · intro hc
      exact hnm (List.mem_append.2 (Or.inr hc))
  -- run the fold across the decomposition
  have hfold : Cover.compound rep 2 d =
      cs2.foldl compoundStep (compoundStep (cs1.foldl compoundStep d) [p, q]) := by
    rw [compound_two_eq, hsplit, List.foldl_append, List.foldl_cons]
  have hps : alookup (cs1.foldl compoundStep d) (PKey.simple p) = some cp := by
    rw [foldl_compoundStep_lookup_simple, hp]
  have hqs : alookup (cs1.foldl compoundStep d) (PKey.simple q) = some cq := by
    rw [foldl_compoundStep_lookup_simple, hq]
  have hc1 : alookup (cs1.foldl compoundStep d) (PKey.comp [p, q]) = none := by
    rw [foldl_compoundStep_lookup_comp cs1 d _ hnotmem.1]
    exact alookup_eq_none (hnosk [p, q])
  have hstep := compoundStep_pair (cs1.foldl compoundStep d) p q cp cq hps hqs
  have hmain : alookup (Cover.compound rep 2 d) (PKey.comp [p, q]) =
      if cp ∩ cq = ∅ then none else some (cp ∩ cq) := by
    rw [hfold, foldl_compoundStep_lookup_comp cs2 _ _ hnotmem.2, hstep]
    by_cases hcc : cp ∩ cq = ∅
    · rw [if_pos hcc, if_pos hcc, hc1]
    · rw [if_neg hcc, if_neg hcc]
      exact alookup_dictInsert_self _ _ _
  refine ⟨hmain, ?_, ?_⟩
  · rw [← alookup_isSome_iff, hmain]
    by_cases hcc : cp ∩ cq = ∅
    · simp [hcc, Finset.nonempty_iff_ne_empty]
    · simp [hcc, Finset.nonempty_iff_ne_empty]
  · intro s
    rw [hfold, foldl_compoundStep_lookup_simple]
    rcases compoundStep_cases (cs1.foldl compoundStep d) [p, q] with hcs | ⟨cc, hcs⟩
    · rw [hcs, foldl_compoundStep_lookup_simple]
    · rw [hcs, alookup_dictInsert_other _ _ _ _ (by simp),
        foldl_compoundStep_lookup_simple]

/-! ## `training.BranchBound` -/

/-- `self.cheapest`: either the initial candidates `Cover` (stored on the
first call) or a predicate tuple recorded from a feasible `partial`. -/
abbrev BBRes (P : Type) := Sum (CoverD P) (List (PKey P))

/-- State threaded through `BranchBound.search`: the remaining call budget,
the best solution so far, and its score (`none` models `float('inf')`). -/
structure BBGo (P : Type) where
  calls : ℕ
  cheapest : BBRes P
  cheapestScore : Option ℚ

/-- `x < s` where `s` may be `float('inf')` (`none`). -/
def ltOptQ (x : ℚ) : Option ℚ → Bool
  | none => true
  | some c => decide (x < c)

/-- `s - x` where `s` may be `float('inf')`. -/
def subOptQ (s : Option ℚ) (x : ℚ) : Option ℚ := s.map (fun c => c - x)

/-- `BranchBound.covered(partial)`: size of the union of the original
covers of the members of `partial` (`0` for the empty tuple). -/
def coveredSet (oc : CoverD P) (part : List (PKey P)) : Finset ℕ :=
  part.foldr (fun p acc => (alookup oc p).getD ∅ ∪ acc) ∅

/-- `BranchBound.reachable(dupe_cover)` body: union of all cover values. -/
def unionVals (d : CoverD P) : Finset ℕ :=
  d.foldr (fun kv acc => kv.2 ∪ acc) ∅

/-- `BranchBound.score(partial)`: the summed counts of its members. -/
def scoreOf (count : PKey P → ℚ) (part : List (PKey P)) : ℚ :=
  (part.map count).sum

/-- `BranchBound.uncovered_by(coverage, covered)`: subtract `covered` from
every cover and keep the nonempty remainders. -/
def uncoveredBy (cov : CoverD P) (covered : Finset ℕ) : CoverD P :=
  cov.filterMap (fun kv =>
    if kv.2 \ covered = ∅ then none else some (kv.1, kv.2 \ covered))

/-- `BranchBound.remove_dominated(coverage, dominator)`: delete every
predicate (the dominator itself included) whose cover the dominator's cover
contains at a count no larger than its own. -/
def removeDominated (count : PKey P → ℚ) (cov : CoverD P)
    (best : PKey P × Finset ℕ) : CoverD P :=
  cov.filter (fun kv => decide (¬ (count best.1 ≤ count kv.1 ∧ kv.2 ⊆ best.2)))

/-- Strict comparison of `BranchBound.order_by` keys
`(len(candidates[p]), -p.count)`, driving Python's `max`. -/
def pyMaxLt (count : PKey P → ℚ) (a b : PKey P × Finset ℕ) : Bool :=
  decide (a.2.card < b.2.card ∨ (a.2.card = b.2.card ∧ -(count a.1) < -(count b.1)))

/-- The body of `BranchBound.search` once `original_cover`/`cheapest` are
set (they are set on the first call and only read afterwards, so the
external entry point `BranchBound.search` below passes them explicitly).
The `fuel` argument drives the Lean recursion only: the entry point passes
`fuel = max_calls`, which bounds the recursion depth because `calls` is
decremented on every call and checked at entry, exactly as in Python. -/
def bbGo (count : PKey P → ℚ) (target : ℤ) (oc : CoverD P) :
    ℕ → BBGo P → CoverD P → List (PKey P) → BBGo P
  | 0, st, _, _ => st
  | fuel + 1, st, cands, part =>
    if st.calls = 0 then st
    else
      let st1 : BBGo P := ⟨st.calls - 1, st.cheapest, st.cheapestScore⟩
      let covered : ℕ := (coveredSet oc part).card
      let score : ℚ := scoreOf count part
      if target ≤ (covered : ℤ) then
        if ltOptQ score st1.cheapestScore then ⟨st1.calls, Sum.inr part, some score⟩
        else st1
      else
        let window := subOptQ st1.cheapestScore score
        let cands2 := cands.filter (fun kv => ltOptQ (count kv.1) window)
        let reachable : ℕ := (unionVals cands2).card + covered
        match cands2 with
        | [] => st1
        | c0 :: crest =>
          if target ≤ (reachable : ℤ) then
            let best := pyMax (pyMaxLt count) c0 crest
            let st2 := bbGo count target oc fuel st1
              (uncoveredBy cands2 best.2) (part ++ [best.1])
            bbGo count target oc fuel st2 (removeDominated count cands2 best) part
          else st1

/-- `BranchBound(target, max_calls).search(candidates)` as invoked with a
fresh instance: the first call stores `original_cover = candidates` and
`cheapest = candidates` and then proceeds exactly like every later call,
which is the shared body `bbGo`.  With `max_calls = 0` the first call
returns `self.cheapest` before that attribute was ever assigned — an
`AttributeError`, modelled as `none`. -/
def BranchBound.search (count : PKey P → ℚ) (target : ℤ) (maxCalls : ℕ)
    (cands : CoverD P) : Option (BBRes P) :=
  if maxCalls = 0 then none
  else some (bbGo count target cands maxCalls ⟨maxCalls, Sum.inl cands, none⟩ cands []).cheapest

/-- The predicate tuple a search result denotes: iterating a `Cover`
yields its keys, iterating a tuple yields its members. -/
def resultPreds : BBRes P → List (PKey P)
  | Sum.inl c => keysOf c
  | Sum.inr ps => ps

/-- Feasibility invariant of `BranchBound`: the recorded best is the
initial candidates object or a tuple covering at least `target`. -/
def GoodRes (target : ℤ) (oc : CoverD P) : BBRes P → Prop
  | Sum.inl c => c = oc
  | Sum.inr ps => target ≤ ((coveredSet oc ps).card : ℤ)

theorem bbGo_good (count : PKey P → ℚ) (target : ℤ) (oc : CoverD P)
    (fuel : ℕ) (st : BBGo P) (cands : CoverD P) (part : List (PKey P))
    (h : GoodRes target oc st.cheapest) :
    GoodRes target oc (bbGo count target oc fuel st cands part).cheapest := by
  induction fuel generalizing st cands part with
  | zero => exact h
  | succ fuel ih =>
    rw [bbGo]
    by_cases h0 : st.calls = 0
    · rw [if_pos h0]
      exact h
    · rw [if_neg h0]
      dsimp only
      by_cases hcov : target ≤ (((coveredSet oc part).card : ℕ) : ℤ)
      · rw [if_pos hcov]
        by_cases hlt : ltOptQ (scoreOf count part) st.cheapestScore = true
        · rw [if_pos hlt]
          exact hcov
        · rw [if_neg hlt]
          exact h
      · rw [if_neg hcov]
        cases hc : cands.filter (fun kv =>
            ltOptQ (count kv.1) (subOptQ st.cheapestScore (scoreOf count part))) with
        | nil => exact h
        | cons c0 crest =>
          dsimp only
          by_cases hr : target ≤
              (((unionVals (c0 :: crest)).card + (coveredSet oc part).card : ℕ) : ℤ)
          · rw [if_pos hr]
            exact ih _ _ _ (ih _ _ _ h)
          · rw [if_neg hr]
            exact h

/-- Shared feasibility lemma: any value returned by `BranchBound.search`
is the initial candidates or a tuple covering at least `target`. -/
theorem search_feasible (count : PKey P → ℚ) (target : ℤ) (maxCalls : ℕ)
    (cands : CoverD P) (res : BBRes P) (hm : maxCalls ≠ 0)
    (hres : BranchBound.search count target maxCalls cands = some res) :
    res = Sum.inl cands ∨
      ∃ ps, res = Sum.inr ps ∧ target ≤ ((coveredSet cands ps).card : ℤ) := by
  rw [BranchBound.search, if_neg hm] at hres
  have hgood : GoodRes target cands
      (bbGo count target cands maxCalls ⟨maxCalls, Sum.inl cands, none⟩ cands []).cheapest :=
    bbGo_good count target cands maxCalls _ cands [] rfl
  have hr : res =
      (bbGo count target cands maxCalls ⟨maxCalls, Sum.inl cands, none⟩ cands []).cheapest :=
    (Option.some.inj hres).symm
  rw [hr]
  cases hch : (bbGo count target cands maxCalls
      ⟨maxCalls, Sum.inl cands, none⟩ cands []).cheapest with
  | inl c =>
    rw [hch] at hgood
    left
    exact congrArg Sum.inl hgood
  | inr ps =>
    rw [hch] at hgood
    right
    exact ⟨ps, rfl, hgood⟩

/-- Python `int()` applied to a rational: truncation toward zero. -/
def truncQ (x : ℚ) : ℤ := if 0 ≤ x then ⌊x⌋ else ⌈x⌉

/-- The `dupe_cover` present when `learn` reaches the search: construction
from the matches, `compound`, `intersection_update(comparison_count)`,
`dominators(cost=comparison_count)`. -/
def learnCover (applyP : P → R → Bool → Finset String) (rep : P → ℕ)
    (cost : PKey P → ℚ) (costKeys : List (PKey P)) (cl : ℕ)
    (preds : List P) (ms : List (R × R)) : CoverD P :=
  Cover.dominators cost
    (Cover.intersectionUpdate
      (Cover.compound rep cl (Cover.ofMatches applyP preds ms)) costKeys)

/-- `coverable_dupes = set.union(*dupe_cover.values())`. -/
def coverableDupes (applyP : P → R → Bool → Finset String) (rep : P → ℕ)
    (cost : PKey P → ℚ) (costKeys : List (PKey P)) (cl : ℕ)
    (preds : List P) (ms : List (R × R)) : Finset ℕ :=
  unionVals (learnCover applyP rep cost costKeys cl preds ms)

/-- `len(uncoverable_dupes)`: the matches (by index) that no surviving
predicate covers. -/
def uncoverableCount (applyP : P → R → Bool → Finset String) (rep : P → ℕ)
    (cost : PKey P → ℚ) (costKeys : List (PKey P)) (cl : ℕ)
    (preds : List P) (ms : List (R × R)) : ℕ :=
  ((List.range ms.length).filter (fun i =>
    decide (i ∉ coverableDupes applyP rep cost costKeys cl preds ms))).length

/-- `epsilon = int((1.0 - recall) * len(matches))`. -/
def epsilonInit (ms : List (R × R)) (rcl : ℚ) : ℤ :=
  truncQ ((1 - rcl) * (ms.length : ℚ))

/-- `BlockLearner.learn(matches, recall)`.  The result is `none` when the
final cover is empty (`set.union()` with no arguments raises a
`TypeError`); otherwise it is the `BranchBound` search result. -/
def BlockLearner.learn (applyP : P → R → Bool → Finset String) (rep : P → ℕ)
    (cost : PKey P → ℚ) (costKeys : List (PKey P)) (cl : ℕ)
    (preds : List P) (ms : List (R × R)) (rcl : ℚ) : Option (BBRes P) :=
  let d3 := learnCover applyP rep cost costKeys cl preds ms
  if d3 = [] then none
  else
    let coverable := unionVals d3
    let u : ℕ := uncoverableCount applyP rep cost costKeys cl preds ms
    let e0 : ℤ := epsilonInit ms rcl
    let eps : ℤ := if (u : ℤ) > e0 then 0 else e0 - (u : ℤ)
    BranchBound.search cost ((coverable.card : ℤ) - eps) 2500 d3

/-- The union of the covers of a list of predicate keys, each evaluated
over the matches themselves (`coverageOfK`). -/
def unionTrueCover (applyP : P → R → Bool → Finset String) (ms : List (R × R))
    (ks : List (PKey P)) : Finset ℕ :=
  ks.foldr (fun k acc => coverageOfK applyP ms k ∪ acc) ∅

/-! ### The cover stored for a compound is contained in its evaluated cover

`Cover.compound` stores for `CompoundPredicate(l)` the intersection of the
component covers.  Evaluating the compound on a pair can only cover more:
a shared block key per component joins into a shared compound block key. -/

theorem mem_keyProduct (ss : List (Finset String)) (ks : List String) :
    ks ∈ keyProduct ss ↔ List.Forall₂ (fun k s => k ∈ s) ks ss := by
  induction ss generalizing ks with
  | nil =>
    simp only [keyProduct, Finset.mem_singleton]
    constructor
    · intro h
      subst h
      exact List.Forall₂.nil
    · intro h
      cases h
      rfl
  | cons s ss ih =>
    rw [keyProduct]
    constructor
    · intro h
      rcases Finset.mem_biUnion.1 h with ⟨k, hk, hks⟩
      rcases Finset.mem_image.1 hks with ⟨t, ht, rfl⟩
      exact List.Forall₂.cons hk ((ih t).1 ht)
    · intro h
      cases h with
      | cons hk ht =>
        exact Finset.mem_biUnion.2 ⟨_, hk, Finset.mem_image.2 ⟨_, (ih _).2 ht, rfl⟩⟩

theorem joinKeys_cons_append (x : String) (as : List String) (y : String) :
    joinKeys ((x :: as) ++ [y]) = joinKeys (x :: as) ++ ":" ++ y := by
  induction as generalizing x with
  | nil => rfl
  | cons z as' ih =>
    have e1 : joinKeys ((x :: z :: as') ++ [y]) =
        x ++ ":" ++ joinKeys ((z :: as') ++ [y]) := rfl
    have e2 : joinKeys (x :: z :: as') = x ++ ":" ++ joinKeys (z :: as') := rfl
    rw [e1, e2, ih z]
    simp [String.append_assoc]

theorem mem_applyK_comp (applyP : P → R → Bool → Finset String) (l : List P)
    (r : R) (t : Bool) (z : String) :
    z ∈ applyK applyP (PKey.comp l) r t ↔
      ∃ ks, List.Forall₂ (fun k s => k ∈ s) ks (l.map (fun p => applyP p r t)) ∧
        joinKeys ks = z := by
  show z ∈ (keyProduct (l.map (fun p => applyP p r t))).image joinKeys ↔ _
  constructor
  · intro h
    rcases Finset.mem_image.1 h with ⟨ks, hks, rfl⟩
    exact ⟨ks, (mem_keyProduct _ ks).1 hks, rfl⟩
  · rintro ⟨ks, h1, rfl⟩
    exact Finset.mem_image.2 ⟨ks, (mem_keyProduct _ ks).2 h1, rfl⟩

theorem coversPair_comp_step (applyP : P → R → Bool → Finset String)
    (l : List P) (b : P) (hb : l.getLast? = some b) (pr : R × R)
    (h1 : coversPair applyP (compoundAKey l) pr = true)
    (h2 : coversPair applyP (PKey.simple b) pr = true) :
    coversPair applyP (PKey.comp l) pr = true := by
  have hnil : l ≠ [] := by
    intro he
    rw [he] at hb
    exact Option.noConfusion hb
  have hsplit : l.dropLast ++ [b] = l := by
    have := List.dropLast_append_getLast hnil
    have hbl : l.getLast hnil = b := by
      have := List.getLast?_eq_getLast l hnil
      rw [hb] at this
      exact (Option.some.inj this).symm
    rw [← hbl]
    exact this
  -- extract the shared simple key for b
  rw [coversPair, decide_eq_true_eq] at h2
  rcases Finset.nonempty_iff_ne_empty.2 h2 with ⟨y, hy⟩
  rw [Finset.mem_inter] at hy
  have hy1 : y ∈ applyP b pr.1 false := hy.1
  have hy2 : y ∈ applyP b pr.2 true := hy.2
  -- extract, for each side, a component key list for the prefix
  have hpref : ∃ as₁ as₂ : List String,
      List.Forall₂ (fun k s => k ∈ s) as₁
        (l.dropLast.map (fun p => applyP p pr.1 false)) ∧
      List.Forall₂ (fun k s => k ∈ s) as₂
        (l.dropLast.map (fun p => applyP p pr.2 true)) ∧
      joinKeys as₁ = joinKeys as₂ ∧ as₁.length = as₂.length := by
    rw [coversPair, decide_eq_true_eq] at h1
    rcases Finset.nonempty_iff_ne_empty.2 h1 with ⟨x, hx⟩
    rw [Finset.mem_inter] at hx
    cases hdl : l.dropLast with
    | nil =>
      exact ⟨[], [], by simp, by simp, rfl, rfl⟩
    | cons p ps =>
      cases ps with
      | nil =>
        have hak : compoundAKey l = PKey.simple p := by rw [compoundAKey, hdl]
        rw [hak] at hx
        refine ⟨[x], [x], ?_, ?_, rfl, rfl⟩
        · simp only [hdl, List.map_cons, List.map_nil]
          exact List.Forall₂.cons hx.1 List.Forall₂.nil
        · simp only [hdl, List.map_cons, List.map_nil]
          exact List.Forall₂.cons hx.2 List.Forall₂.nil
      | cons q rest =>
        have hak : compoundAKey l = PKey.comp (p :: q :: rest) := by
          rw [compoundAKey, hdl]
        rw [hak] at hx
        rcases (mem_applyK_comp applyP _ _ _ x).1 hx.1 with ⟨as₁, ha1, hj1⟩
        rcases (mem_applyK_comp applyP _ _ _ x).1 hx.2 with ⟨as₂, ha2, hj2⟩
        refine ⟨as₁, as₂, hdl ▸ ha1, hdl ▸ ha2, hj1.trans hj2.symm, ?_⟩
        have e1 := ha1.length_eq
        have e2 := ha2.length_eq
        rw [List.length_map] at e1 e2
        rw [e1, e2]
  rcases hpref with ⟨as₁, as₂, ha1, ha2, hjoin, hlen⟩
  -- the shared compound key
  have hmem1 : joinKeys (as₁ ++ [y]) ∈ applyK applyP (PKey.comp l) pr.1 false := by
    rw [mem_applyK_comp]
    refine ⟨as₁ ++ [y], ?_, rfl⟩
    rw [← hsplit, List.map_append, List.map_singleton]
    exact List.rel_append ha1 (List.Forall₂.cons hy1 List.Forall₂.nil)
  have hmem2 : joinKeys (as₁ ++ [y]) ∈ applyK applyP (PKey.comp l) pr.2 true := by
    rw [mem_applyK_comp]
    refine ⟨as₂ ++ [y], ?_, ?_⟩
    · rw [← hsplit, List.map_append, List.map_singleton]
      exact List.rel_append ha2 (List.Forall₂.cons hy2 List.Forall₂.nil)
    · cases as₁ with
      | nil =>
        cases as₂ with
        | nil => rfl
        | cons w ws => exact absurd hlen (by simp)
      | cons v vs =>
        cases as₂ with
        | nil => exact absurd hlen (by simp)
        | cons w ws =>
          rw [joinKeys_cons_append, joinKeys_cons_append, hjoin]
  rw [coversPair, decide_eq_true_eq]
  exact Finset.nonempty_iff_ne_empty.1
    ⟨joinKeys (as₁ ++ [y]), Finset.mem_inter.2 ⟨hmem1, hmem2⟩⟩

theorem coverage_step_subset (applyP : P → R → Bool → Finset String)
    (ms : List (R × R)) (l : List P) (b : P) (hb : l.getLast? = some b) :
    coverageOfK applyP ms (compoundAKey l) ∩ coverageOfK applyP ms (PKey.simple b) ⊆
      coverageOfK applyP ms (PKey.comp l) := by
  intro i hi
  rw [Finset.mem_inter, coverageOfK, coverageOfK, Finset.mem_filter,
    Finset.mem_filter] at hi
  rw [coverageOfK, Finset.mem_filter]
  refine ⟨hi.1.1, ?_⟩
  have c1 := hi.1.2
  have c2 := hi.2.2
  rw [coversAt] at c1 c2 ⊢
  cases hp : ms[i]? with
  | none =>
    rw [hp] at c1
    exact Bool.noConfusion c1
  | some pr =>
    rw [hp] at c1 c2
    exact coversPair_comp_step applyP l b hb pr c1 c2

/-! ### The pipeline invariant: stored covers under-approximate evaluated covers -/

/-- Every entry of the cover holds a subset of the key's evaluated cover,
itself a set of match indices. -/
def CoverInv (applyP : P → R → Bool → Finset String) (ms : List (R × R))
    (d : CoverD P) : Prop :=
  ∀ kv ∈ d, kv.2 ⊆ coverageOfK applyP ms kv.1 ∧ kv.2 ⊆ Finset.range ms.length

theorem coverageOfK_subset_range (applyP : P → R → Bool → Finset String)
    (ms : List (R × R)) (k : PKey P) :
    coverageOfK applyP ms k ⊆ Finset.range ms.length :=
  Finset.filter_subset _ _

theorem foldl_preserves {β γ : Type} (Q : β → Prop) (f : β → γ → β)
    (h : ∀ b c, Q b → Q (f b c)) :
    ∀ (l : List γ) (b : β), Q b → Q (l.foldl f b) := by
  intro l
  induction l with
  | nil => exact fun b hb => hb
  | cons c cs ih => exact fun b hb => ih (f b c) (h b c hb)

theorem mem_dictInsert {d : List (K × V)} {k : K} {v : V} {kv : K × V}
    (h : kv ∈ dictInsert d k v) : kv = (k, v) ∨ kv ∈ d := by
  induction d with
  | nil => simpa [dictInsert] using h
  | cons kv0 rest ih =>
    by_cases he : kv0.1 = k
    · rw [show dictInsert (kv0 :: rest) k v = (k, v) :: rest by
        simp [dictInsert, he]] at h
      rcases List.mem_cons.1 h with h1 | h1
      · exact Or.inl h1
      · exact Or.inr (List.mem_cons_of_mem _ h1)
    · rw [show dictInsert (kv0 :: rest) k v = kv0 :: dictInsert rest k v by
        simp [dictInsert, he]] at h
      rcases List.mem_cons.1 h with h1 | h1
      · exact Or.inr (h1 ▸ List.mem_cons_self _ _)
      · rcases ih h1 with h2 | h2
        · exact Or.inl h2
        · exact Or.inr (List.mem_cons_of_mem _ h2)

theorem inv_ofMatches (applyP : P → R → Bool → Finset String)
    (preds : List P) (ms : List (R × R)) :
    CoverInv applyP ms (Cover.ofMatches applyP preds ms) := by
  intro kv hkv
  rcases List.mem_filterMap.1 hkv with ⟨p, _, hsome⟩
  by_cases hc : coverageOfK applyP ms (PKey.simple p) = ∅
  · simp [hc] at hsome
  · simp only [hc, if_neg hc, if_false] at hsome
    have : kv = (PKey.simple p, coverageOfK applyP ms (PKey.simple p)) := by
      simpa using hsome.symm
    rw [this]
    exact ⟨Finset.Subset.refl _, coverageOfK_subset_range applyP ms _⟩

theorem inv_compoundStep (applyP : P → R → Bool → Finset String)
    (ms : List (R × R)) (d : CoverD P) (l : List P)
    (h : CoverInv applyP ms d) : CoverInv applyP ms (compoundStep d l) := by
  rw [compoundStep]
  cases hgl : l.getLast? with
  | none => exact h
  | some b =>
    cases hak : alookup d (compoundAKey l) with
    | none => exact h
    | some ca =>
      dsimp only
      by_cases hcc : ca ∩ (alookup d (PKey.simple b)).getD ∅ = ∅
      · rw [if_pos hcc]
        exact h
      · rw [if_neg hcc]
        intro kv hkv
        rcases mem_dictInsert hkv with h1 | h1
        · have hca := h _ (alookup_mem hak)
          have hsub : ca ∩ (alookup d (PKey.simple b)).getD ∅ ⊆
              coverageOfK applyP ms (PKey.comp l) := by
            intro i hi
            rw [Finset.mem_inter] at hi
            cases hbl : alookup d (PKey.simple b) with
            | none =>
              rw [hbl] at hi
              simp at hi
            | some cb =>
              rw [hbl] at hi
              have hcb := h _ (alookup_mem hbl)
              refine coverage_step_subset applyP ms l b hgl ?_
              rw [Finset.mem_inter]
              exact ⟨hca.1 hi.1, hcb.1 (by simpa using hi.2)⟩
          rw [h1]
          refine ⟨hsub, ?_⟩
          intro i hi
          exact hca.2 (Finset.mem_inter.1 hi).1
        · exact h kv h1

theorem inv_compound (applyP : P → R → Bool → Finset String)
    (ms : List (R × R)) (rep : P → ℕ) (cl : ℕ) (d : CoverD P)
    (h : CoverInv applyP ms d) : CoverInv applyP ms (Cover.compound rep cl d) := by
  rw [Cover.compound]
  refine foldl_preserves (CoverInv applyP ms) _ ?_ _ d h
  intro dd i hdd
  exact foldl_preserves (CoverInv applyP ms) compoundStep
    (fun b c hb => inv_compoundStep applyP ms b c hb) _ dd hdd

theorem inv_intersectionUpdate (applyP : P → R → Bool → Finset String)
    (ms : List (R × R)) (d : CoverD P) (other : List (PKey P))
    (h : CoverInv applyP ms d) :
    CoverInv applyP ms (Cover.intersectionUpdate d other) := by
  intro kv hkv
  exact h kv (List.mem_of_mem_filter hkv)

theorem inv_dominantsLoop (applyP : P → R → Bool → Finset String)
    (ms : List (R × R)) (cost : PKey P → ℚ) (d : CoverD P) (l : List (PKey P))
    (h : CoverInv applyP ms d) : CoverInv applyP ms (dominantsLoop cost d l) := by
  intro kv hkv
  have hv := dominantsLoop_val cost d l (c := kv.1) (v := kv.2)
    (by simpa using hkv)
  cases hl : alookup d kv.1 with
  | none =>
    rw [hl] at hv
    simp at hv
    rw [hv]
    exact ⟨by simp, by simp⟩
  | some v =>
    rw [hl] at hv
    simp at hv
    rw [hv]
    exact h _ (alookup_mem hl)

theorem inv_learnCover (applyP : P → R → Bool → Finset String) (rep : P → ℕ)
    (cost : PKey P → ℚ) (costKeys : List (PKey P)) (cl : ℕ)
    (preds : List P) (ms : List (R × R)) :
    CoverInv applyP ms (learnCover applyP rep cost costKeys cl preds ms) := by
  rw [learnCover, Cover.dominators]
  exact inv_dominantsLoop applyP ms cost _ _
    (inv_intersectionUpdate applyP ms _ _
      (inv_compound applyP ms rep cl _ (inv_ofMatches applyP preds ms)))

/-! ### Key uniqueness through the pipeline -/

theorem keysOf_ofMatches (applyP : P → R → Bool → Finset String)
    (preds : List P) (ms : List (R × R)) :
    keysOf (Cover.ofMatches applyP preds ms) = preds.filterMap (fun p =>
      if coverageOfK applyP ms (PKey.simple p) = ∅ then none
      else some (PKey.simple p)) := by
  induction preds with
  | nil => rfl
  | cons p ps ih =>
    by_cases hc : coverageOfK applyP ms (PKey.simple p) = ∅
    · have hstep : Cover.ofMatches applyP (p :: ps) ms =
          Cover.ofMatches applyP ps ms := by
        rw [Cover.ofMatches, Cover.ofMatches, List.filterMap_cons]
        simp [hc]
      rw [hstep, ih, List.filterMap_cons]
      simp [hc]
    · have hstep : Cover.ofMatches applyP (p :: ps) ms =
          (PKey.simple p, coverageOfK applyP ms (PKey.simple p)) ::
            Cover.ofMatches applyP ps ms := by
        rw [Cover.ofMatches, Cover.ofMatches, List.filterMap_cons]
        simp [hc]
      rw [hstep, keysOf_cons, ih, List.filterMap_cons]
      simp [hc]

theorem nodup_keysOf_ofMatches (applyP : P → R → Bool → Finset String)
    (preds : List P) (ms : List (R × R)) (h : preds.Nodup) :
    (keysOf (Cover.ofMatches applyP preds ms)).Nodup := by
  rw [keysOf_ofMatches]
  refine List.Nodup.filterMap ?_ h
  intro a b k ha hb
  by_cases hca : coverageOfK applyP ms (PKey.simple a) = ∅
  · simp [hca] at ha
  · simp only [if_neg hca] at ha
    by_cases hcb : coverageOfK applyP ms (PKey.simple b) = ∅
    · simp [hcb] at hb
    · simp only [if_neg hcb] at hb
      have h1 : PKey.simple a = k := by simpa using ha
      have h2 : PKey.simple b = k := by simpa using hb
      rw [← h2] at h1
      injection h1

theorem nodup_compoundStep (d : CoverD P) (l : List P)
    (h : (keysOf d).Nodup) : (keysOf (compoundStep d l)).Nodup := by
  rcases compoundStep_cases d l with hc | ⟨cc, hc⟩
  · rw [hc]; exact h
  · rw [hc]; exact nodup_keysOf_dictInsert d _ cc h

theorem nodup_compound (rep : P → ℕ) (cl : ℕ) (d : CoverD P)
    (h : (keysOf d).Nodup) : (keysOf (Cover.compound rep cl d)).Nodup := by
  rw [Cover.compound]
  refine foldl_preserves (fun dd => (keysOf dd).Nodup) _ ?_ _ d h
  intro dd i hdd
  exact foldl_preserves (fun dd => (keysOf dd).Nodup) compoundStep
    (fun b c hb => nodup_compoundStep b c hb) _ dd hdd

theorem nodup_intersectionUpdate (d : CoverD P) (other : List (PKey P))
    (h : (keysOf d).Nodup) : (keysOf (Cover.intersectionUpdate d other)).Nodup :=
  List.Nodup.sublist (List.Sublist.map Prod.fst (List.filter_sublist d)) h

theorem nodup_dominators (cost : PKey P → ℚ) (d : CoverD P)
    (h : (keysOf d).Nodup) : (keysOf (Cover.dominators cost d)).Nodup :=
  List.Nodup.sublist (dominantsLoop_keys_sublist cost d _) (insSortK_nodup _ _ h)

theorem nodup_learnCover (applyP : P → R → Bool → Finset String) (rep : P → ℕ)
    (cost : PKey P → ℚ) (costKeys : List (PKey P)) (cl : ℕ)
    (preds : List P) (ms : List (R × R)) (h : preds.Nodup) :
    (keysOf (learnCover applyP rep cost costKeys cl preds ms)).Nodup := by
  rw [learnCover]
  exact nodup_dominators cost _
    (nodup_intersectionUpdate _ _
      (nodup_compound rep cl _ (nodup_keysOf_ofMatches applyP preds ms h)))

/-! ### Union bookkeeping -/

theorem mem_unionVals {d : CoverD P} {x : ℕ} :
    x ∈ unionVals d ↔ ∃ kv ∈ d, x ∈ kv.2 := by
  induction d with
  | nil => simp [unionVals]
  | cons kv rest ih =>
    rw [show unionVals (kv :: rest) = kv.2 ∪ unionVals rest from rfl]
    rw [Finset.mem_union, ih]
    constructor
    · rintro (h | ⟨kv', hm, hx⟩)
      · exact ⟨kv, List.mem_cons_self _ _, h⟩
      · exact ⟨kv', List.mem_cons_of_mem _ hm, hx⟩
    · rintro ⟨kv', hm, hx⟩
      rcases List.mem_cons.1 hm with rfl | hm
      · exact Or.inl hx
      · exact Or.inr ⟨kv', hm, hx⟩

theorem subset_unionVals {d : CoverD P} {kv : PKey P × Finset ℕ} (h : kv ∈ d) :
    kv.2 ⊆ unionVals d :=
  fun x hx => mem_unionVals.2 ⟨kv, h, hx⟩

theorem unionVals_subset_range (applyP : P → R → Bool → Finset String)
    (ms : List (R × R)) (d : CoverD P) (h : CoverInv applyP ms d) :
    unionVals d ⊆ Finset.range ms.length := by
  intro x hx
  rcases mem_unionVals.1 hx with ⟨kv, hm, hxv⟩
  exact (h kv hm).2 hxv

theorem getD_subset_coverage (applyP : P → R → Bool → Finset String)
    (ms : List (R × R)) (d : CoverD P) (h : CoverInv applyP ms d) (k : PKey P) :
    (alookup d k).getD ∅ ⊆ coverageOfK applyP ms k := by
  cases hl : alookup d k with
  | none => simp
  | some v =>
    have := h _ (alookup_mem hl)
    simpa using this.1

theorem coverage_subset_unionTrue (applyP : P → R → Bool → Finset String)
    (ms : List (R × R)) (ks : List (PKey P)) (k : PKey P) (hk : k ∈ ks) :
    coverageOfK applyP ms k ⊆ unionTrueCover applyP ms ks := by
  induction ks with
  | nil => simp at hk
  | cons k0 rest ih =>
    rw [show unionTrueCover applyP ms (k0 :: rest) =
      coverageOfK applyP ms k0 ∪ unionTrueCover applyP ms rest from rfl]
    rcases List.mem_cons.1 hk with rfl | hk
    · exact Finset.subset_union_left
    · exact (ih hk).trans Finset.subset_union_right

theorem coveredSet_subset_unionTrue (applyP : P → R → Bool → Finset String)
    (ms : List (R × R)) (d : CoverD P) (h : CoverInv applyP ms d)
    (ps : List (PKey P)) :
    coveredSet d ps ⊆ unionTrueCover applyP ms ps := by
  induction ps with
  | nil => simp [coveredSet]
  | cons p rest ih =>
    rw [show coveredSet d (p :: rest) =
      (alookup d p).getD ∅ ∪ coveredSet d rest from rfl]
    rw [show unionTrueCover applyP ms (p :: rest) =
      coverageOfK applyP ms p ∪ unionTrueCover applyP ms rest from rfl]
    exact Finset.union_subset_union (getD_subset_coverage applyP ms d h p) ih

theorem coveredSet_subset_unionVals (d : CoverD P) (ps : List (PKey P)) :
    coveredSet d ps ⊆ unionVals d := by
  induction ps with
  | nil => simp [coveredSet]
  | cons p rest ih =>
    rw [show coveredSet d (p :: rest) =
      (alookup d p).getD ∅ ∪ coveredSet d rest from rfl]
    refine Finset.union_subset ?_ ih
    cases hl : alookup d p with
    | none => simp
    | some v =>
      have := subset_unionVals (alookup_mem hl)
      simpa using this

theorem getD_subset_coveredSet (d : CoverD P) (ps : List (PKey P)) (k : PKey P)
    (hk : k ∈ ps) : (alookup d k).getD ∅ ⊆ coveredSet d ps := by
  induction ps with
  | nil => simp at hk
  | cons p rest ih =>
    rw [show coveredSet d (p :: rest) =
      (alookup d p).getD ∅ ∪ coveredSet d rest from rfl]
    rcases List.mem_cons.1 hk with rfl | hk
    · exact Finset.subset_union_left
    · exact (ih hk).trans Finset.subset_union_right

theorem unionVals_subset_coveredSet_keys (d : CoverD P)
    (hnd : (keysOf d).Nodup) :
    unionVals d ⊆ coveredSet d (keysOf d) := by
  intro x hx
  rcases mem_unionVals.1 hx with ⟨kv, hm, hxv⟩
  have hl : alookup d kv.1 = some kv.2 := alookup_of_mem hnd (by
    obtain ⟨k, v⟩ := kv
    exact hm)
  refine getD_subset_coveredSet d (keysOf d) kv.1 (List.mem_map_of_mem Prod.fst hm) ?_
  rw [hl]
  simpa using hxv

/-! ### Counting the uncoverable matches -/

theorem length_filter_range (m : ℕ) (f : ℕ → Bool) :
    ((List.range m).filter f).length =
      (Finset.filter (fun i => f i = true) (Finset.range m)).card := by
  induction m with
  | zero => rfl
  | succ m ih =>
    rw [List.range_succ, List.filter_append, List.length_append,
      Finset.range_succ, Finset.filter_insert]
    by_cases hf : f m = true
    · rw [if_pos hf]
      rw [Finset.card_insert_of_not_mem (by
        intro hc
        exact absurd (Finset.mem_filter.1 hc).1 (by simp))]
      simp [hf, ih]
    · rw [if_neg hf]
      simp [hf, ih]

theorem uncoverableCount_eq (applyP : P → R → Bool → Finset String)
    (rep : P → ℕ) (cost : PKey P → ℚ) (costKeys : List (PKey P)) (cl : ℕ)
    (preds : List P) (ms : List (R × R))
    (hsub : coverableDupes applyP rep cost costKeys cl preds ms ⊆
      Finset.range ms.length) :
    uncoverableCount applyP rep cost costKeys cl preds ms =
      ms.length - (coverableDupes applyP rep cost costKeys cl preds ms).card := by
  rw [uncoverableCount, length_filter_range]
  have : Finset.filter (fun i =>
      decide (i ∉ coverableDupes applyP rep cost costKeys cl preds ms) = true)
      (Finset.range ms.length) =
      Finset.range ms.length \ coverableDupes applyP rep cost costKeys cl preds ms := by
    rw [Finset.sdiff_eq_filter]
    apply Finset.filter_congr
    intro i _
    simp
  rw [this, Finset.card_sdiff hsub, Finset.card_range]

/-- The shared recall-bound lemma for `learn`: whenever `learn` returns,
the returned predicates, re-evaluated over the matches, cover at least
`⌈recall·|matches|⌉ - |uncoverable|` pairs, and in the warning case
(`|uncoverable| > ε₀`, where `ε = 0` is used) they cover every coverable
match. -/
theorem learn_bound (applyP : P → R → Bool → Finset String) (rep : P → ℕ)
    (cost : PKey P → ℚ) (costKeys : List (PKey P)) (cl : ℕ)
    (preds : List P) (ms : List (R × R)) (rcl : ℚ) (res : BBRes P)
    (hpred : preds.Nodup) (h1 : rcl ≤ 1)
    (hres : BlockLearner.learn applyP rep cost costKeys cl preds ms rcl = some res) :
    (⌈rcl * (ms.length : ℚ)⌉ -
        (uncoverableCount applyP rep cost costKeys cl preds ms : ℤ)
      ≤ ((unionTrueCover applyP ms (resultPreds res)).card : ℤ))
    ∧ (epsilonInit ms rcl <
        (uncoverableCount applyP rep cost costKeys cl preds ms : ℤ) →
      coverableDupes applyP rep cost costKeys cl preds ms ⊆
        unionTrueCover applyP ms (resultPreds res)) := by
  have hinv := inv_learnCover applyP rep cost costKeys cl preds ms
  have hnd3 := nodup_learnCover applyP rep cost costKeys cl preds ms hpred
  rw [BlockLearner.learn] at hres
  dsimp only at hres
  by_cases hne : learnCover applyP rep cost costKeys cl preds ms = []
  · rw [if_pos hne] at hres
    exact Option.noConfusion hres
  · rw [if_neg hne] at hres
    have hsubr : unionVals (learnCover applyP rep cost costKeys cl preds ms) ⊆
        Finset.range ms.length :=
      unionVals_subset_range applyP ms _ hinv
    have hcvle : (unionVals (learnCover applyP rep cost costKeys cl preds ms)).card
        ≤ ms.length := by
      have := Finset.card_le_card hsubr
      rwa [Finset.card_range] at this
    have huval : uncoverableCount applyP rep cost costKeys cl preds ms =
        ms.length -
          (unionVals (learnCover applyP rep cost costKeys cl preds ms)).card :=
      uncoverableCount_eq applyP rep cost costKeys cl preds ms hsubr
    have huz : (uncoverableCount applyP rep cost costKeys cl preds ms : ℤ) =
        (ms.length : ℤ) -
          ((unionVals (learnCover applyP rep cost costKeys cl preds ms)).card : ℤ) := by
      rw [huval]
      exact_mod_cast Int.ofNat_sub hcvle
    have hceil : ⌈rcl * (ms.length : ℚ)⌉ ≤ (ms.length : ℤ) := by
      rw [Int.ceil_le]
      push_cast
      have := mul_le_mul_of_nonneg_right h1 (show (0:ℚ) ≤ (ms.length : ℚ) by positivity)
      linarith
    have he0eq : epsilonInit ms rcl = (ms.length : ℤ) - ⌈rcl * (ms.length : ℚ)⌉ := by
      have hx : (0:ℚ) ≤ (1 - rcl) * (ms.length : ℚ) :=
        mul_nonneg (by linarith) (by positivity)
      rw [epsilonInit, truncQ, if_pos hx]
      have hone : (1 - rcl) * ((ms.length : ℕ) : ℚ) =
          (((ms.length : ℕ) : ℤ) : ℚ) + (-(rcl * ((ms.length : ℕ) : ℚ))) := by
        push_cast
        ring
      rw [hone, Int.floor_int_add, Int.floor_neg]
      ring
    rcases search_feasible cost _ 2500 _ res (by norm_num) hres with hcase | ⟨ps, rfl, hcovd⟩
    · have hkeys : resultPreds res =
          keysOf (learnCover applyP rep cost costKeys cl preds ms) := by
        rw [hcase]
        rfl
      have hsup : unionVals (learnCover applyP rep cost costKeys cl preds ms) ⊆
          unionTrueCover applyP ms (resultPreds res) := by
        rw [hkeys]
        exact (unionVals_subset_coveredSet_keys _ hnd3).trans
          (coveredSet_subset_unionTrue applyP ms _ hinv _)
      have hA := Finset.card_le_card hsup
      constructor
      · calc ⌈rcl * (ms.length : ℚ)⌉ -
            (uncoverableCount applyP rep cost costKeys cl preds ms : ℤ)
            ≤ ((unionVals (learnCover applyP rep cost costKeys cl preds ms)).card : ℤ) := by
              omega
          _ ≤ _ := by exact_mod_cast hA
      · intro _
        exact hsup
    · have hset1 : coveredSet (learnCover applyP rep cost costKeys cl preds ms) ps ⊆
          unionTrueCover applyP ms (resultPreds (Sum.inr ps)) :=
        coveredSet_subset_unionTrue applyP ms _ hinv ps
      have hA := Finset.card_le_card hset1
      by_cases hw : epsilonInit ms rcl <
          (uncoverableCount applyP rep cost costKeys cl preds ms : ℤ)
      · rw [if_pos (by exact hw)] at hcovd
        have hcv : ((unionVals (learnCover applyP rep cost costKeys cl preds ms)).card : ℤ)
            ≤ ((coveredSet (learnCover applyP rep cost costKeys cl preds ms) ps).card : ℤ) := by
          omega
        have heq : coveredSet (learnCover applyP rep cost costKeys cl preds ms) ps =
            unionVals (learnCover applyP rep cost costKeys cl preds ms) :=
          Finset.eq_of_subset_of_card_le (coveredSet_subset_unionVals _ ps)
            (by exact_mod_cast hcv)
        constructor
        · calc ⌈rcl * (ms.length : ℚ)⌉ -
              (uncoverableCount applyP rep cost costKeys cl preds ms : ℤ)
              ≤ ((coveredSet (learnCover applyP rep cost costKeys cl preds ms) ps).card : ℤ) := by
                omega
            _ ≤ _ := by exact_mod_cast hA
        · intro _
          show coverableDupes applyP rep cost costKeys cl preds ms ⊆ _
          rw [show coverableDupes applyP rep cost costKeys cl preds ms =
            unionVals (learnCover applyP rep cost costKeys cl preds ms) from rfl, ← heq]
          exact hset1
      · rw [if_neg (by exact hw)] at hcovd
        constructor
        · calc ⌈rcl * (ms.length : ℚ)⌉ -
              (uncoverableCount applyP rep cost costKeys cl preds ms : ℤ)
              ≤ ((coveredSet (learnCover applyP rep cost costKeys cl preds ms) ps).card : ℤ) := by
                omega
            _ ≤ _ := by exact_mod_cast hA
        · intro hw2
          exact absurd hw2 hw

/-! ## `predicates.py`: `compounds_with` and the canopy state -/

/-- The concrete predicate classes relevant to `compounds_with`
(`type(other) == type(self)` compares concrete classes). -/
inductive PredKind where
  | simpleP
  | stringP
  | existsP
  | tfidfTextCanopy
  | tfidfSetCanopy
  | tfidfNGramCanopy
  | tfidfTextSearch
  | tfidfSetSearch
  | tfidfNGramSearch
  | levenshteinCanopy
  | levenshteinSearch
deriving DecidableEq

/-- Whether a class is one of the `IndexPredicate` subclasses. -/
def PredKind.isIndex : PredKind → Bool
  | .simpleP => false
  | .stringP => false
  | .existsP => false
  | _ => true

/-- A predicate as `compounds_with` sees it: concrete class and field. -/
structure ModelPred where
  kind : PredKind
  field : String
deriving DecidableEq

/-- `IndexPredicate.compounds_with(self, other)`: `False` exactly when
`other` is on the same field and `type(other) == type(self)`; in every
other case the trailing `return True` runs. -/
def IndexPredicate.compounds_with (self other : ModelPred) : Bool :=
  if other.field = self.field then
    if other.kind = self.kind then false else true
  else true

/-- The index a canopy predicate blocks against: `_doc_to_id` (`none` for a
document never indexed — a `KeyError`) and `search(doc, threshold)`.  Both
are external collaborators, carried as functions. -/
structure CIndex (D : Type) where
  docToId : D → Option ℕ
  search : D → ℚ → List ℕ

/-- The mutable state of a canopy predicate: `_cache`, `canopy` (whose
values may be the null center) and the optional `index`. -/
structure CanopyState (D : Type) where
  cache : List (String × List String)
  canopy : List (ℕ × Option ℕ)
  index : Option (CIndex D)

/-- `[str(block_key)]`, or `[]` when `block_key` stayed `None`. -/
def blockKeys : Option ℕ → List String
  | none => []
  | some c => [toString c]

variable {D : Type}

/-- `CanopyPredicate.__call__(record)` as a transition on the state and the
column value `col = record[self.field]` (`None` and `""` are falsy).
`.error ()` models the `AttributeError` raised when no index is set and the
uncaught `KeyError` for an unindexed document; both fire before any state
mutation. -/
def CanopyPredicate.call (pre : String → D) (threshold : ℚ)
    (st : CanopyState D) (col : Option String) :
    Except Unit (List String × CanopyState D) :=
  match col with
  | none => Except.ok ([], st)
  | some s =>
    if s = "" then Except.ok ([], st)
    else
      match alookup st.cache s with
      | some res => Except.ok (res, st)
      | none =>
        match st.index with
        | none => Except.error ()
        | some idx =>
          match idx.docToId (pre s) with
          | none => Except.error ()
          | some docId =>
            match alookup st.canopy docId with
            | some bk => Except.ok (blockKeys bk, st)
            | none =>
              let members := idx.search (pre s) threshold
              let canopy1 := members.foldl (fun cp mem =>
                if (alookup cp mem).isSome then cp
                else dictInsert cp mem (some docId)) st.canopy
              if members.isEmpty then
                Except.ok ([], ⟨st.cache, dictInsert canopy1 docId none, st.index⟩)
              else
                Except.ok ([toString docId],
                  ⟨st.cache, dictInsert canopy1 docId (some docId), st.index⟩)

/-- A sequence of `__call__`s on records, keeping only the state. -/
def CanopyPredicate.calls (pre : String → D) (threshold : ℚ) :
    List (Option String) → CanopyState D → Except Unit (CanopyState D)
  | [], st => Except.ok st
  | col :: cols, st =>
    match CanopyPredicate.call pre threshold st col with
    | Except.error e => Except.error e
    | Except.ok (_, st') => CanopyPredicate.calls pre threshold cols st'

theorem canopyFold_preserves (docId : ℕ) (members : List ℕ)
    (cp : List (ℕ × Option ℕ)) (d : ℕ) (v : Option ℕ)
    (hd : alookup cp d = some v) :
    alookup (members.foldl (fun cp mem =>
      if (alookup cp mem).isSome then cp
      else dictInsert cp mem (some docId)) cp) d = some v := by
  induction members generalizing cp with
  | nil => exact hd
  | cons mem rest ih =>
    rw [List.foldl_cons]
    by_cases hm : (alookup cp mem).isSome = true
    · rw [if_pos hm]
      exact ih cp hd
    · rw [if_neg hm]
      refine ih _ ?_
      have hne : mem ≠ d := by
        intro he
        rw [he, hd] at hm
        exact hm rfl
      rw [alookup_dictInsert_other cp mem d (some docId) hne]
      exact hd

/-- One `__call__` never changes an existing canopy entry: members already
assigned are skipped by the loop, and the final `canopy[doc_id] = ...`
assignments only touch a `doc_id` that was absent on entry. -/
theorem canopy_call_preserves (pre : String → D) (threshold : ℚ)
    (st : CanopyState D) (col : Option String) (r : List String)
    (st' : CanopyState D)
    (hc : CanopyPredicate.call pre threshold st col = Except.ok (r, st'))
    (d : ℕ) (v : Option ℕ) (hd : alookup st.canopy d = some v) :
    alookup st'.canopy d = some v := by
  rw [CanopyPredicate.call.eq_def] at hc
  cases col with
  | none =>
    obtain ⟨rfl, rfl⟩ : r = [] ∧ st' = st := by
      have := Except.ok.inj hc
      exact ⟨(Prod.mk.injEq _ _ _ _ ▸ this).1.symm, (Prod.mk.injEq _ _ _ _ ▸ this).2.symm⟩
    exact hd
  | some s =>
    dsimp only at hc
    by_cases hs : s = ""
    · rw [if_pos hs] at hc
      obtain ⟨rfl, rfl⟩ : r = [] ∧ st' = st := by
        have := Except.ok.inj hc
        exact ⟨(Prod.mk.injEq _ _ _ _ ▸ this).1.symm, (Prod.mk.injEq _ _ _ _ ▸ this).2.symm⟩
      exact hd
    · rw [if_neg hs] at hc
      cases hcache : alookup st.cache s with
      | some res =>
        rw [hcache] at hc
        obtain ⟨rfl, rfl⟩ : r = res ∧ st' = st := by
          have := Except.ok.inj hc
          exact ⟨(Prod.mk.injEq _ _ _ _ ▸ this).1.symm, (Prod.mk.injEq _ _ _ _ ▸ this).2.symm⟩
        exact hd
      | none =>
        rw [hcache] at hc
        dsimp only at hc
        cases hidx : st.index with
        | none =>
          rw [hidx] at hc
          exact Except.noConfusion hc
        | some idx =>
          rw [hidx] at hc
          dsimp only at hc
          cases hdoc : idx.docToId (pre s) with
          | none =>
            rw [hdoc] at hc
            exact Except.noConfusion hc
          | some docId =>
            rw [hdoc] at hc
            dsimp only at hc
            cases hcan : alookup st.canopy docId with
            | some bk =>
              rw [hcan] at hc
              obtain ⟨rfl, rfl⟩ : r = blockKeys bk ∧ st' = st := by
                have := Except.ok.inj hc
                exact ⟨(Prod.mk.injEq _ _ _ _ ▸ this).1.symm,
                  (Prod.mk.injEq _ _ _ _ ▸ this).2.symm⟩
              exact hd
            | none =>
              rw [hcan] at hc
              dsimp only at hc
              have hne : docId ≠ d := by
                intro he
                rw [he, hd] at hcan
                exact Option.noConfusion hcan
              have hfold := canopyFold_preserves docId
                (idx.search (pre s) threshold) st.canopy d v hd
              by_cases hmem : (idx.search (pre s) threshold).isEmpty = true
              · rw [if_pos hmem] at hc
                have hst : st' = ⟨st.cache,
                    dictInsert ((idx.search (pre s) threshold).foldl (fun cp mem =>
                      if (alookup cp mem).isSome then cp
                      else dictInsert cp mem (some docId)) st.canopy) docId none,
                    some idx⟩ := by
                  have := Except.ok.inj hc
                  exact ((Prod.mk.injEq _ _ _ _ ▸ this).2.symm)
                rw [hst]
                show alookup (dictInsert _ docId none) d = some v
                rw [alookup_dictInsert_other _ docId d none hne]
                exact hfold
              · rw [if_neg hmem] at hc
                have hst : st' = ⟨st.cache,
                    dictInsert ((idx.search (pre s) threshold).foldl (fun cp mem =>
                      if (alookup cp mem).isSome then cp
                      else dictInsert cp mem (some docId)) st.canopy) docId (some docId),
                    some idx⟩ := by
                  have := Except.ok.inj hc
                  exact ((Prod.mk.injEq _ _ _ _ ▸ this).2.symm)
                rw [hst]
                show alookup (dictInsert _ docId (some docId)) d = some v
                rw [alookup_dictInsert_other _ docId d (some docId) hne]
                exact hfold

/-- Canopy stickiness over any sequence of calls. -/
theorem canopy_calls_preserve (pre : String → D) (threshold : ℚ)
    (cols : List (Option String)) (st st' : CanopyState D)
    (hc : CanopyPredicate.calls pre threshold cols st = Except.ok st')
    (d : ℕ) (v : Option ℕ) (hd : alookup st.canopy d = some v) :
    alookup st'.canopy d = some v := by
  induction cols generalizing st with
  | nil =>
    rw [CanopyPredicate.calls] at hc
    rw [← Except.ok.inj hc]
    exact hd
  | cons col cols ih =>
    rw [CanopyPredicate.calls] at hc
    cases hcall : CanopyPredicate.call pre threshold st col with
    | error e =>
      rw [hcall] at hc
      exact Except.noConfusion hc
    | ok pr =>
      rw [hcall] at hc
      exact ih pr.2 hc (canopy_call_preserves pre threshold st col pr.1 pr.2
        (by rw [hcall]) d v hd)

/-! ## `labeler.py`: `RLRLearner.pop` and `DisagreementLearner.pop` -/

/-- numpy `argmax` inner loop: first index of the maximum. -/
def argmaxGo (bi : ℕ) (bv : ℚ) (i : ℕ) : List ℚ → ℕ
  | [] => bi
  | y :: ys => if bv < y then argmaxGo i y (i + 1) ys else argmaxGo bi bv (i + 1) ys

/-- numpy `argmax` on a list (first index attaining the maximum). -/
def argmaxIdx : List ℚ → ℕ
  | [] => 0
  | x :: xs => argmaxGo 0 x 1 xs

/-- numpy `argmin` inner loop: first index of the minimum. -/
def argminGo (bi : ℕ) (bv : ℚ) (i : ℕ) : List ℚ → ℕ
  | [] => bi
  | y :: ys => if y < bv then argminGo i y (i + 1) ys else argminGo bi bv (i + 1) ys

/-- numpy `argmin` on a list (first index attaining the minimum). -/
def argminIdx : List ℚ → ℕ
  | [] => 0
  | x :: xs => argminGo 0 x 1 xs

/-- `RLRLearner._bias()`. -/
def RLRLearner.bias (y : List ℚ) : ℚ :=
  let positive : ℕ := (y.filter (fun v => v = 1)).length
  let n : ℕ := y.length
  let b : ℚ := 1 - (if positive ≠ 0 then (positive : ℚ) / (n : ℚ) else 0)
  let uw : ℚ := min (positive : ℚ) ((n : ℚ) - (positive : ℚ))
  ((1 / 2) * uw + b * 10) / (uw + 10)

/-- The exceptions the labeler's `pop` paths can raise: `IndexError` from
the empty-pool guard or `list.pop`, `TypeError` from array arithmetic
applied to a non-array object, `AxisError` from `numpy.delete(-, -, axis=0)`
on a 0-dimensional array. -/
inductive PyErr where
  | indexError
  | typeError
  | axisError
  deriving DecidableEq, Repr

/-- A value the labeler hands to numpy or to the regression model: either a
2-dimensional numeric array (a list of rows) or the `Distances` model object
of `distances.py`.  `RLRLearner.__init__` binds the `Distances` model to
`self.distances` (labeler.py:90); the distance matrix it computes at line 97
goes into `self.distance_matrix`, which no later method reads. -/
inductive NpVal where
  | matrix (rows : List (List ℚ))
  | distancesModel
  deriving DecidableEq, Repr

/-- `predict_proba` of the regularized logistic regression (an external
library): on a numeric matrix it yields one score per row — the learned
model is abstracted as the per-row scoring function `sc` — while applied to
the `Distances` model object it raises `TypeError`, since the object
supports none of the array arithmetic the regression performs on its
argument. -/
def predictProba (sc : List ℚ → ℚ) : NpVal → Except PyErr (List ℚ)
  | NpVal.matrix rows => Except.ok (rows.map sc)
  | NpVal.distancesModel => Except.error PyErr.typeError

/-- `numpy.delete(v, i, axis=0)`: drops row `i` of a matrix; on the
`Distances` model object numpy first wraps the argument into a
0-dimensional object array, for which axis 0 is out of bounds
(`AxisError`). -/
def npDeleteRow : NpVal → ℕ → Except PyErr NpVal
  | NpVal.matrix rows, i => Except.ok (NpVal.matrix (rows.eraseIdx i))
  | NpVal.distancesModel, _ => Except.error PyErr.axisError

/-- An `RLRLearner`'s state as `__init__` (labeler.py:85-103) leaves it: the
unlabelled candidate pool, the labels `y` seen by `fit` (read by `_bias`),
the `distances` attribute — the `Distances` model object bound at line 90,
and never successfully reassigned afterwards — and the `distance_matrix`
computed at line 97, which no later method reads. -/
structure RLRState (C : Type) where
  candidates : List C
  y : List ℚ
  distances : NpVal
  distance_matrix : List (List ℚ)

/-- `RLRLearner.pop()` (labeler.py:124-139): `IndexError` on an empty pool;
otherwise compute `target_uncertainty = _bias()`, then `candidate_scores()`,
which is `predict_proba(self.distances)` (labeler.py:170-171), pick the
first row minimizing `|target - p|` (numpy `argmin`), reassign
`self.distances` to `numpy.delete(self.distances, i, axis=0)` (line 135)
and only then pop the candidate (line 137).  A raise is the `error` case;
on the states `__init__` constructs, every raise precedes the first
mutation, so it leaves the learner unchanged. -/
def RLRLearner.pop {C : Type} (sc : List ℚ → ℚ) (st : RLRState C) :
    Except PyErr (List C × RLRState C) :=
  if st.candidates.length = 0 then Except.error PyErr.indexError
  else
    let t := RLRLearner.bias st.y
    match predictProba sc st.distances with
    | Except.error e => Except.error e
    | Except.ok probabilities =>
      let dist := probabilities.map (fun p => |t - p|)
      let i := argminIdx dist
      match npDeleteRow st.distances i with
      | Except.error e => Except.error e
      | Except.ok d =>
        match st.candidates.get? i with
        | none => Except.error PyErr.indexError
        | some pair =>
          Except.ok ([pair],
            ⟨st.candidates.eraseIdx i, st.y, d, st.distance_matrix⟩)

/-- A `DisagreementLearner`'s state after `_common_init`
(labeler.py:327-334): the candidate pool (one list, shared by reference with
both sub-learners), the classifier's `RLRLearner` fields — its `distances`
attribute is again the `Distances` model object, passed on at line 330 —
and the block learner's cached label column (labeler.py:194, 209-214). -/
structure DisagreementState (C : Type) where
  candidates : List C
  y : List ℚ
  distances : NpVal
  distance_matrix : List (List ℚ)
  cachedLabels : Option (List ℚ)

/-- The disagreement mask `std(probs > 0.5, axis=1).astype(bool)`: with two
columns the row standard deviation is nonzero exactly when the two
thresholded booleans differ. -/
def disagreeMask (probs : List (ℚ × ℚ)) : List Bool :=
  probs.map (fun pr => decide ((1 / 2 : ℚ) < pr.1) != decide ((1 / 2 : ℚ) < pr.2))

/-- `disagreement.nonzero()[0]`: the conflicting row indices in order. -/
def conflictsOf (probs : List (ℚ × ℚ)) : List ℕ :=
  (List.range probs.length).filter (fun i => (disagreeMask probs).getD i false)

/-- `numpy.std` over the two columns of a row: exactly `|a - b| / 2`. -/
def rowStd (pr : ℚ × ℚ) : ℚ := |pr.1 - pr.2| / 2

/-- The row `DisagreementLearner.pop` selects: on disagreement,
`conflicts[argmax(probs[conflicts][:, 0] - target)]` with `target = u` the
uniform draw; otherwise `std(probs, axis=1).argmax()`. -/
def uncertainIndexOf (probs : List (ℚ × ℚ)) (u : ℚ) : ℕ :=
  match conflictsOf probs with
  | [] => argmaxIdx (probs.map rowStd)
  | c :: cs =>
    (c :: cs).getD (argmaxIdx ((c :: cs).map
      (fun i => (probs.getD i (0, 0)).1 - u))) 0

/-- `DisagreementLearner.pop()` (labeler.py:336-366): `IndexError` on an
empty pool; otherwise query `candidate_scores()` of each learner in tuple
order — the classifier first, i.e. `predict_proba(self.distances)` —
concatenate the two score columns row-wise, select the row
`uncertainIndexOf` picks (lines 348-355, with `target = u` the uniform draw
of line 352), pop the candidate (line 361) and `_remove` its row from both
learners (line 363; the classifier's `_remove` is
`numpy.delete(self.distances, i, axis=0)`, labeler.py:141-142, the
blocker's drops the cached label row, labeler.py:231-235).  The block
learner's `predict` labels each pair `0` or `1` from `current_predicates`
(labeler.py:216-229), abstracted as the labelling function `plab`;
`candidate_scores` returns its cached column when one is set
(labeler.py:209-214). -/
def DisagreementLearner.pop {C : Type} (sc : List ℚ → ℚ) (plab : C → ℚ)
    (st : DisagreementState C) (u : ℚ) :
    Except PyErr (List C × DisagreementState C) :=
  if st.candidates.length = 0 then Except.error PyErr.indexError
  else
    match predictProba sc st.distances with
    | Except.error e => Except.error e
    | Except.ok col1 =>
      let col2 := match st.cachedLabels with
        | some l => l
        | none => st.candidates.map plab
      let probs := col1.zip col2
      let i := uncertainIndexOf probs u
      match st.candidates.get? i with
      | none => Except.error PyErr.indexError
      | some pair =>
        match npDeleteRow st.distances i with
        | Except.error e => Except.error e
        | Except.ok d =>
          Except.ok ([pair],
            ⟨st.candidates.eraseIdx i, st.y, d, st.distance_matrix,
              some (col2.eraseIdx i)⟩)

theorem argmaxGo_shift (u : ℚ) : ∀ (xs : List ℚ) (bi i : ℕ) (bv : ℚ),
    argmaxGo bi (bv - u) i (xs.map (fun x => x - u)) = argmaxGo bi bv i xs := by
  intro xs
  induction xs with
  | nil => intro bi i bv; rfl
  | cons y ys ih =>
    intro bi i bv
    rw [List.map_cons, argmaxGo, argmaxGo]
    by_cases h : bv < y
    · rw [if_pos (by exact sub_lt_sub_right h u), if_pos h]
      exact ih i (i + 1) y
    · rw [if_neg (by
        intro hc
        exact h (by linarith [sub_lt_sub_iff_right u |>.1 hc])), if_neg h]
      exact ih bi (i + 1) bv

theorem argmaxIdx_shift (u : ℚ) (xs : List ℚ) :
    argmaxIdx (xs.map (fun x => x - u)) = argmaxIdx xs := by
  cases xs with
  | nil => rfl
  | cons x xs =>
    rw [List.map_cons, argmaxIdx, argmaxIdx]
    exact argmaxGo_shift u xs 0 1 x

/-- The selected row does not depend on the uniform draw: subtracting the
same scalar from every candidate value leaves the (first) argmax alone. -/
theorem uncertainIndexOf_const (probs : List (ℚ × ℚ)) (u₁ u₂ : ℚ) :
    uncertainIndexOf probs u₁ = uncertainIndexOf probs u₂ := by
  rw [uncertainIndexOf, uncertainIndexOf]
  cases hc : conflictsOf probs with
  | nil => rfl
  | cons c cs =>
    dsimp only
    have key : ∀ u : ℚ, argmaxIdx ((c :: cs).map
        (fun i => (probs.getD i (0, 0)).1 - u)) =
        argmaxIdx ((c :: cs).map (fun i => (probs.getD i (0, 0)).1)) := by
      intro u
      have hmm : (c :: cs).map (fun i => (probs.getD i (0, 0)).1 - u) =
          ((c :: cs).map (fun i => (probs.getD i (0, 0)).1)).map
            (fun x => x - u) := by
        rw [List.map_map]
        rfl
      rw [hmm, argmaxIdx_shift]
    rw [key u₁, key u₂]

/-! ## Claim theorems and witnesses -/

/-- C1: for every call `learn(matches, recall)` with `recall ∈ (0, 1]` that
returns a tuple of predicates, the union of the covers of the returned
predicates, evaluated over the same `matches`, has size at least
`⌈recall·|matches|⌉ - |matches not coverable by any candidate predicate|`;
when the out-of-predicates warning is emitted (`|uncoverable| > ε₀`, so the
`ε = 0` fallback applies) the returned predicates cover every coverable
match. -/
theorem learn_recall_bound (applyP : P → R → Bool → Finset String)
    (rep : P → ℕ) (cost : PKey P → ℚ) (costKeys : List (PKey P)) (cl : ℕ)
    (preds : List P) (ms : List (R × R)) (rcl : ℚ) (res : BBRes P)
    (hpred : preds.Nodup) (h0 : 0 < rcl) (h1 : rcl ≤ 1)
    (hres : BlockLearner.learn applyP rep cost costKeys cl preds ms rcl = some res) :
    (⌈rcl * (ms.length : ℚ)⌉ -
        (uncoverableCount applyP rep cost costKeys cl preds ms : ℤ)
      ≤ ((unionTrueCover applyP ms (resultPreds res)).card : ℤ))
    ∧ (epsilonInit ms rcl <
        (uncoverableCount applyP rep cost costKeys cl preds ms : ℤ) →
      coverableDupes applyP rep cost costKeys cl preds ms ⊆
        unionTrueCover applyP ms (resultPreds res)) :=
  learn_bound applyP rep cost costKeys cl preds ms rcl res hpred h1 hres

def wApply1 : ℕ → ℕ → Bool → Finset String := fun _ _ _ => {"k"}

def wMs1 : List (ℕ × ℕ) := [(0, 0)]

def wCost1 : PKey ℕ → ℚ := fun _ => 1

theorem learn_recall_bound_witness :
    (([0] : List ℕ).Nodup ∧ (0:ℚ) < 1 ∧ (1:ℚ) ≤ 1 ∧
      BlockLearner.learn wApply1 (fun p => p) wCost1 [PKey.simple 0] 2 [0] wMs1 1 =
        some (Sum.inr [PKey.simple 0])) ∧
    (⌈(1:ℚ) * (wMs1.length : ℚ)⌉ -
        (uncoverableCount wApply1 (fun p => p) wCost1 [PKey.simple 0] 2 [0] wMs1 : ℤ)
      ≤ ((unionTrueCover wApply1 wMs1 (resultPreds (Sum.inr [PKey.simple 0]))).card : ℤ))
    ∧ (epsilonInit wMs1 1 <
        (uncoverableCount wApply1 (fun p => p) wCost1 [PKey.simple 0] 2 [0] wMs1 : ℤ) →
      coverableDupes wApply1 (fun p => p) wCost1 [PKey.simple 0] 2 [0] wMs1 ⊆
        unionTrueCover wApply1 wMs1 (resultPreds (Sum.inr [PKey.simple 0]))) := by
  refine ⟨⟨by decide, by norm_num, by norm_num, by with_unfolding_all decide⟩, ?_, ?_⟩
  · exact (learn_recall_bound wApply1 (fun p => p) wCost1 [PKey.simple 0] 2 [0] wMs1 1
      (Sum.inr [PKey.simple 0]) (by decide) (by norm_num) (by norm_num)
      (by with_unfolding_all decide)).1
  · exact (learn_recall_bound wApply1 (fun p => p) wCost1 [PKey.simple 0] 2 [0] wMs1 1
      (Sum.inr [PKey.simple 0]) (by decide) (by norm_num) (by norm_num)
      (by with_unfolding_all decide)).2

/-- C2: every value `BranchBound.search(candidates)` returns either is a
predicate tuple whose union of covers in `original_cover` (the initial
candidates) reaches `target`, or is the initial candidates collection
itself — in particular when `max_calls` runs out before any feasible
partial solution is recorded. -/
theorem branchBound_feasibility (count : PKey P → ℚ) (target : ℤ)
    (maxCalls : ℕ) (cands : CoverD P) (res : BBRes P) (hm : maxCalls ≠ 0)
    (hres : BranchBound.search count target maxCalls cands = some res) :
    res = Sum.inl cands ∨
      ∃ ps, res = Sum.inr ps ∧ target ≤ ((coveredSet cands ps).card : ℤ) :=
  search_feasible count target maxCalls cands res hm hres

def wCost2 : PKey ℕ → ℚ := fun _ => 1

theorem branchBound_feasibility_witness :
    ((5 : ℕ) ≠ 0 ∧
      BranchBound.search wCost2 1 5 [(PKey.simple 0, ({0} : Finset ℕ))] =
        some (Sum.inr [PKey.simple 0])) ∧
    ((Sum.inr [PKey.simple 0] : BBRes ℕ) =
        Sum.inl [(PKey.simple 0, ({0} : Finset ℕ))] ∨
      ∃ ps, (Sum.inr [PKey.simple 0] : BBRes ℕ) = Sum.inr ps ∧
        (1:ℤ) ≤ ((coveredSet [(PKey.simple 0, ({0} : Finset ℕ))] ps).card : ℤ)) :=
  ⟨⟨by decide, by decide⟩,
    branchBound_feasibility wCost2 1 5 [(PKey.simple 0, ({0} : Finset ℕ))]
      (Sum.inr [PKey.simple 0]) (by decide) (by decide)⟩

/-- C3: `A * B` is the Counter whose key set is `keys(A) ∩ keys(B)`, whose
count at each common key is `A[k] * B[k]`, and whose `total` is the sum of
those products; multiplication is commutative (`A*B == B*A` compares the
dicts, and their totals agree as well). -/
theorem counter_mul_product_spec {K : Type} [DecidableEq K] (a b : Counter K)
    (ha : (keysOf a.d).Nodup) (hb : (keysOf b.d).Nodup) :
    (∀ k, alookup (Counter.mul a b).d k =
      match alookup a.d k, alookup b.d k with
      | some v, some w => some (v * w)
      | _, _ => none)
    ∧ (∀ k, k ∈ keysOf (Counter.mul a b).d ↔ k ∈ keysOf a.d ∧ k ∈ keysOf b.d)
    ∧ ((Counter.mul a b).total =
        Finset.sum ((keysOf a.d).toFinset ∩ (keysOf b.d).toFinset)
          (fun k => valD a.d k * valD b.d k))
    ∧ (∀ k, alookup (Counter.mul a b).d k = alookup (Counter.mul b a).d k)
    ∧ (Counter.mul a b).total = (Counter.mul b a).total := by
  refine ⟨counter_mul_lookup a b, ?_, counter_mul_total a b ha hb, ?_, ?_⟩
  · intro k
    rw [← alookup_isSome_iff, ← alookup_isSome_iff, ← alookup_isSome_iff,
      counter_mul_lookup]
    cases alookup a.d k <;> cases alookup b.d k <;> simp
  · intro k
    rw [counter_mul_lookup, counter_mul_lookup]
    cases alookup a.d k <;> cases alookup b.d k <;> simp [Nat.mul_comm]
  · rw [counter_mul_total a b ha hb, counter_mul_total b a hb ha,
      Finset.inter_comm]
    exact Finset.sum_congr rfl (fun k _ => Nat.mul_comm _ _)

theorem counter_mul_product_witness :
    ((keysOf (Counter.ofDict [((0:ℕ), 2), (1, 3)]).d).Nodup ∧
      (keysOf (Counter.ofDict [((1:ℕ), 4), (2, 5)]).d).Nodup) ∧
    (∀ k, alookup (Counter.mul (Counter.ofDict [((0:ℕ), 2), (1, 3)])
        (Counter.ofDict [(1, 4), (2, 5)])).d k =
      match alookup (Counter.ofDict [((0:ℕ), 2), (1, 3)]).d k,
          alookup (Counter.ofDict [((1:ℕ), 4), (2, 5)]).d k with
      | some v, some w => some (v * w)
      | _, _ => none)
    ∧ (∀ k, k ∈ keysOf (Counter.mul (Counter.ofDict [((0:ℕ), 2), (1, 3)])
          (Counter.ofDict [(1, 4), (2, 5)])).d ↔
        k ∈ keysOf (Counter.ofDict [((0:ℕ), 2), (1, 3)]).d ∧
        k ∈ keysOf (Counter.ofDict [((1:ℕ), 4), (2, 5)]).d)
    ∧ ((Counter.mul (Counter.ofDict [((0:ℕ), 2), (1, 3)])
          (Counter.ofDict [(1, 4), (2, 5)])).total =
        Finset.sum ((keysOf (Counter.ofDict [((0:ℕ), 2), (1, 3)]).d).toFinset ∩
            (keysOf (Counter.ofDict [((1:ℕ), 4), (2, 5)]).d).toFinset)
          (fun k => valD (Counter.ofDict [((0:ℕ), 2), (1, 3)]).d k *
            valD (Counter.ofDict [((1:ℕ), 4), (2, 5)]).d k))
    ∧ (∀ k, alookup (Counter.mul (Counter.ofDict [((0:ℕ), 2), (1, 3)])
          (Counter.ofDict [(1, 4), (2, 5)])).d k =
        alookup (Counter.mul (Counter.ofDict [((1:ℕ), 4), (2, 5)])
          (Counter.ofDict [(0, 2), (1, 3)])).d k)
    ∧ (Counter.mul (Counter.ofDict [((0:ℕ), 2), (1, 3)])
          (Counter.ofDict [(1, 4), (2, 5)])).total =
        (Counter.mul (Counter.ofDict [((1:ℕ), 4), (2, 5)])
          (Counter.ofDict [(0, 2), (1, 3)])).total :=
  ⟨⟨by decide, by decide⟩,
    counter_mul_product_spec (Counter.ofDict [((0:ℕ), 2), (1, 3)])
      (Counter.ofDict [(1, 4), (2, 5)]) (by decide) (by decide)⟩

/-- C4: after `Cover.compound(2)` on a well-formed all-simple cover, the
compound of two predicates `p ≠ q` present before the call (the combination
is enumerated with `p` before `q` in the sorted order, `rep p < rep q`) is
a key exactly when `cover[p] ∩ cover[q]` is nonempty, in which case its
cover is that intersection; the simple predicates' covers are unchanged. -/
theorem cover_compound_spec (rep : P → ℕ) (d : CoverD P)
    (hall : ∀ kv ∈ d, (kv.1).isSimple = true) (hnd : (keysOf d).Nodup)
    (p q : P) (cp cq : Finset ℕ)
    (hp : alookup d (PKey.simple p) = some cp)
    (hq : alookup d (PKey.simple q) = some cq)
    (hrep : rep p < rep q) :
    (alookup (Cover.compound rep 2 d) (PKey.comp [p, q]) =
      if cp ∩ cq = ∅ then none else some (cp ∩ cq))
    ∧ (PKey.comp [p, q] ∈ keysOf (Cover.compound rep 2 d) ↔ (cp ∩ cq).Nonempty)
    ∧ (∀ s : P, alookup (Cover.compound rep 2 d) (PKey.simple s) =
        alookup d (PKey.simple s)) :=
  compound_two_spec rep d hall hnd p q cp cq hp hq hrep

def wCover4 : CoverD ℕ :=
  [(PKey.simple 0, ({0, 1} : Finset ℕ)), (PKey.simple 1, ({1, 2} : Finset ℕ))]

theorem cover_compound_spec_witness :
    ((∀ kv ∈ wCover4, (kv.1).isSimple = true) ∧ (keysOf wCover4).Nodup ∧
      alookup wCover4 (PKey.simple 0) = some ({0, 1} : Finset ℕ) ∧
      alookup wCover4 (PKey.simple 1) = some ({1, 2} : Finset ℕ) ∧ (0:ℕ) < 1) ∧
    (alookup (Cover.compound (fun p => p) 2 wCover4) (PKey.comp [0, 1]) =
      if ({0, 1} : Finset ℕ) ∩ {1, 2} = ∅ then none
      else some (({0, 1} : Finset ℕ) ∩ {1, 2}))
    ∧ (PKey.comp [0, 1] ∈ keysOf (Cover.compound (fun p => p) 2 wCover4) ↔
        (({0, 1} : Finset ℕ) ∩ {1, 2}).Nonempty)
    ∧ (∀ s : ℕ, alookup (Cover.compound (fun p => p) 2 wCover4) (PKey.simple s) =
        alookup wCover4 (PKey.simple s)) :=
  ⟨⟨by decide, by decide, by decide, by decide, by decide⟩,
    cover_compound_spec (fun p => p) wCover4 (by decide) (by decide) 0 1
      {0, 1} {1, 2} (by decide) (by decide) (by decide)⟩

/-- C5: `Cover.dominators(cost)` is idempotent: a second application with
the same cost map leaves the cover unchanged. -/
theorem cover_dominators_idempotent (cost : PKey P → ℚ) (d : CoverD P)
    (hnd : (keysOf d).Nodup) :
    Cover.dominators cost (Cover.dominators cost d) = Cover.dominators cost d :=
  dominators_idempotent cost d hnd

def wCover5 : CoverD ℕ :=
  [(PKey.simple 0, ({1, 2, 3} : Finset ℕ)),
   (PKey.simple 1, ({1, 2, 3} : Finset ℕ)),
   (PKey.simple 2, ({4} : Finset ℕ))]

def wCost5 : PKey ℕ → ℚ := fun k =>
  match k with
  | PKey.simple 0 => 10
  | _ => 5

theorem cover_dominators_idempotent_witness :
    (keysOf wCover5).Nodup ∧
    Cover.dominators wCost5 (Cover.dominators wCost5 wCover5) =
      Cover.dominators wCost5 wCover5 :=
  ⟨by decide, cover_dominators_idempotent wCost5 wCover5 (by decide)⟩

/-- C6 (counterexample): the claim says an index predicate never compounds
with ANY predicate on the same field; in the code
`IndexPredicate.compounds_with` returns `False` only when the other
predicate has the same concrete class, so a TF-IDF text canopy predicate
against a TF-IDF n-gram canopy predicate on the same field returns `True`,
refuting the claim at this concrete input. -/
theorem index_compounds_with_counterexample :
    (⟨PredKind.tfidfNGramCanopy, "name"⟩ : ModelPred).field =
      (⟨PredKind.tfidfTextCanopy, "name"⟩ : ModelPred).field ∧
    PredKind.isIndex (⟨PredKind.tfidfTextCanopy, "name"⟩ : ModelPred).kind = true ∧
    IndexPredicate.compounds_with ⟨PredKind.tfidfTextCanopy, "name"⟩
      ⟨PredKind.tfidfNGramCanopy, "name"⟩ = true :=
  ⟨rfl, rfl, rfl⟩

/-- C6 (amended): for an index predicate `p`, `p.compounds_with(q)` returns
`False` exactly when `q` is on the same field and of the same concrete
type; index predicates do compound with same-field predicates of a
different concrete type. -/
theorem index_compounds_with_amended (p q : ModelPred)
    (hidx : p.kind.isIndex = true) :
    IndexPredicate.compounds_with p q = false ↔
      q.field = p.field ∧ q.kind = p.kind := by
  rw [IndexPredicate.compounds_with]
  by_cases h1 : q.field = p.field
  · by_cases h2 : q.kind = p.kind
    · simp [h1, h2]
    · simp [h1, h2]
  · simp [h1]

theorem index_compounds_with_witness :
    PredKind.isIndex
      (⟨PredKind.tfidfTextCanopy, "f"⟩ : ModelPred).kind = true ∧
    (IndexPredicate.compounds_with ⟨PredKind.tfidfTextCanopy, "f"⟩
        ⟨PredKind.tfidfTextCanopy, "f"⟩ = false ↔
      (⟨PredKind.tfidfTextCanopy, "f"⟩ : ModelPred).field =
          (⟨PredKind.tfidfTextCanopy, "f"⟩ : ModelPred).field ∧
        (⟨PredKind.tfidfTextCanopy, "f"⟩ : ModelPred).kind =
          (⟨PredKind.tfidfTextCanopy, "f"⟩ : ModelPred).kind) :=
  ⟨by decide,
    index_compounds_with_amended ⟨PredKind.tfidfTextCanopy, "f"⟩
      ⟨PredKind.tfidfTextCanopy, "f"⟩ (by decide)⟩

/-- C7 (canopy stickiness): over any sequence of `__call__`s, once the
canopy assigns a document a non-null center, no later call changes it; in
particular assignments made for members of a freshly created canopy are
never overwritten by subsequent queries. -/
theorem canopy_stickiness (pre : String → D) (threshold : ℚ)
    (cols : List (Option String)) (st st' : CanopyState D)
    (hc : CanopyPredicate.calls pre threshold cols st = Except.ok st')
    (d : ℕ) (c : ℕ) (hd : alookup st.canopy d = some (some c)) :
    alookup st'.canopy d = some (some c) :=
  canopy_calls_preserve pre threshold cols st st' hc d (some c) hd

def wIdx7 : CIndex String :=
  ⟨fun doc => if doc = "x" then some 1 else none, fun _ _ => [0, 2]⟩

def wSt7 : CanopyState String := ⟨[], [(0, some 5)], some wIdx7⟩

def wSt7' : CanopyState String :=
  ⟨[], [(0, some 5), (2, some 1), (1, some 1)], some wIdx7⟩

theorem canopy_stickiness_witness :
    (CanopyPredicate.calls (fun s => s) (1/2) [some "x"] wSt7 =
        Except.ok wSt7' ∧
      alookup wSt7.canopy 0 = some (some 5)) ∧
    alookup wSt7'.canopy 0 = some (some 5) :=
  ⟨⟨rfl, rfl⟩,
    canopy_stickiness (fun s => s) (1/2) [some "x"] wSt7 wSt7' rfl 0 5 rfl⟩

/-- C8: the `IndexError` guard fires exactly on the empty candidate pool
and runs before any mutation; but with a nonempty pool neither `pop`
returns a pair: both reach `candidate_scores()`, which applies
`predict_proba` to `self.distances` — the `Distances` model object bound at
labeler.py:90 and passed to the classifier at line 330 — and raises
`TypeError` (were scores ever produced, `_remove`'s `numpy.delete` on the
same object would raise `AxisError`).  The pair-returning half of the claim
describes the intent — `pop()` is annotated `-> TrainingExample`, and the
matrix computed into `distance_matrix` at line 97 is exactly what these
calls expect — not the code as written. -/
theorem pop_exhaustion {C : Type} (sc : List ℚ → ℚ) (plab : C → ℚ) (u : ℚ)
    (y : List ℚ) (dm : List (List ℚ)) (cache : Option (List ℚ))
    (cands : List C) (hne : cands ≠ []) :
    RLRLearner.pop sc (⟨[], y, NpVal.distancesModel, dm⟩ : RLRState C) =
        Except.error PyErr.indexError
    ∧ RLRLearner.pop sc (⟨cands, y, NpVal.distancesModel, dm⟩ : RLRState C) =
        Except.error PyErr.typeError
    ∧ DisagreementLearner.pop sc plab
        (⟨[], y, NpVal.distancesModel, dm, cache⟩ : DisagreementState C) u =
        Except.error PyErr.indexError
    ∧ DisagreementLearner.pop sc plab
        (⟨cands, y, NpVal.distancesModel, dm, cache⟩ : DisagreementState C) u =
        Except.error PyErr.typeError := by
  have hguard : ¬ cands.length = 0 := fun hc => hne (List.length_eq_zero.1 hc)
  refine ⟨rfl, ?_, rfl, ?_⟩
  · simp only [RLRLearner.pop, if_neg hguard]
    rfl
  · simp only [DisagreementLearner.pop, if_neg hguard]
    rfl

theorem pop_exhaustion_witness :
    ([7] : List ℕ) ≠ [] ∧
    (RLRLearner.pop (fun _ => 1/2)
        (⟨[], [1, 0], NpVal.distancesModel, [[0]]⟩ : RLRState ℕ) =
        Except.error PyErr.indexError
      ∧ RLRLearner.pop (fun _ => 1/2)
        (⟨[7], [1, 0], NpVal.distancesModel, [[0]]⟩ : RLRState ℕ) =
        Except.error PyErr.typeError
      ∧ DisagreementLearner.pop (fun _ => 1/2) (fun _ => 0)
        (⟨[], [1, 0], NpVal.distancesModel, [[0]], none⟩ :
          DisagreementState ℕ) (1/3) = Except.error PyErr.indexError
      ∧ DisagreementLearner.pop (fun _ => 1/2) (fun _ => 0)
        (⟨[7], [1, 0], NpVal.distancesModel, [[0]], none⟩ :
          DisagreementState ℕ) (1/3) = Except.error PyErr.typeError) :=
  ⟨by decide, pop_exhaustion (fun _ => 1/2) (fun _ => 0) (1/3) [1, 0] [[0]]
    none [7] (by decide)⟩

/-- C10: two runs of `DisagreementLearner.pop` on the same state with the
same sub-learner scoring and different uniform draws behave identically,
but only because neither removes or returns a pair: `candidate_scores()`
raises `TypeError` on the `Distances` model object before line 352 ever
samples the uniform.  The selection formula of labeler.py:348-355 itself
(third conjunct) is independent of the draw — the first argmax of
`probs[conflicts][:, 0] - target` is invariant under the constant shift —
which is the behaviour the claim ascribes to the intended, matrix-carrying
learner. -/
theorem pop_uniform_independent {C : Type} (sc : List ℚ → ℚ) (plab : C → ℚ)
    (st : DisagreementState C) (u₁ u₂ : ℚ)
    (hmodel : st.distances = NpVal.distancesModel) (hne : st.candidates ≠ [])
    (probs : List (ℚ × ℚ)) (hconf : conflictsOf probs ≠ []) :
    DisagreementLearner.pop sc plab st u₁ =
      DisagreementLearner.pop sc plab st u₂
    ∧ DisagreementLearner.pop sc plab st u₁ = Except.error PyErr.typeError
    ∧ uncertainIndexOf probs u₁ = uncertainIndexOf probs u₂ := by
  have hguard : ¬ st.candidates.length = 0 :=
    fun hc => hne (List.length_eq_zero.1 hc)
  have herr : ∀ u : ℚ, DisagreementLearner.pop sc plab st u =
      Except.error PyErr.typeError := by
    intro u
    rw [DisagreementLearner.pop, if_neg hguard, hmodel]
    rfl
  exact ⟨(herr u₁).trans (herr u₂).symm, herr u₁,
    uncertainIndexOf_const probs u₁ u₂⟩

theorem pop_uniform_independent_witness :
    ((⟨[7, 8], [1, 0], NpVal.distancesModel, [[0]], none⟩ :
        DisagreementState ℕ).distances = NpVal.distancesModel ∧
      ([7, 8] : List ℕ) ≠ [] ∧
      conflictsOf [((1 : ℚ), (0 : ℚ)), (0, 0)] ≠ []) ∧
    (DisagreementLearner.pop (fun _ => 1/2) (fun _ => 0)
        (⟨[7, 8], [1, 0], NpVal.distancesModel, [[0]], none⟩ :
          DisagreementState ℕ) (1/3) =
      DisagreementLearner.pop (fun _ => 1/2) (fun _ => 0)
        (⟨[7, 8], [1, 0], NpVal.distancesModel, [[0]], none⟩ :
          DisagreementState ℕ) (2/3)
      ∧ DisagreementLearner.pop (fun _ => 1/2) (fun _ => 0)
        (⟨[7, 8], [1, 0], NpVal.distancesModel, [[0]], none⟩ :
          DisagreementState ℕ) (1/3) = Except.error PyErr.typeError
      ∧ uncertainIndexOf [((1 : ℚ), (0 : ℚ)), (0, 0)] (1/3) =
          uncertainIndexOf [((1 : ℚ), (0 : ℚ)), (0, 0)] (2/3)) :=
  ⟨⟨rfl, by decide, by with_unfolding_all decide⟩,
    pop_uniform_independent (fun _ => 1/2) (fun _ => 0)
      ⟨[7, 8], [1, 0], NpVal.distancesModel, [[0]], none⟩ (1/3) (2/3) rfl
      (by decide) [((1 : ℚ), (0 : ℚ)), (0, 0)]
      (by with_unfolding_all decide)⟩

end Dedupe
